import Mathlib

/-!
Verification of the CodeArchiveParser archive-to-document pipeline
(`server/routes.ts`): filtering and sorting of ZIP entries, common-root
detection and stripping, tree construction from flat paths, content
formatting and statistics aggregation.

Strings are modelled as `List Char` (`Str`).  JavaScript's
`localeCompare`-based sort is modelled by a byte-wise (code-point)
lexicographic total order, one of the two orderings the specification
explicitly allows; the sort itself is modelled by the stable
`List.insertionSort`, which agrees with every stable sort for a total
preorder.  A JavaScript object used as a string-keyed map with insertion
order is modelled by an association list (`List FTNode`, keyed by node
name) during the mutable build; `convertToArray` (routes.ts
lines 102-109) then models `Object.values`' actual enumeration order:
own string keys that are canonical array indices (digit strings below
2^32 - 1) come first in ascending numeric order, followed by the
remaining keys in insertion order, recursing into children.
`entry.getData().toString('utf8')` is modelled by
the field `ZipEntry.data : Option Str`, where `none` stands for a read
or decode failure (an exception at the call site).
-/

abbrev Str := List Char

/-- Shorthand to write `Str` literals. -/
def str (s : String) : Str := s.toList

/-- Byte-wise lexicographic "less or equal" on strings; the consistent
total ordering used to model the `localeCompare` comparator of
routes.ts line 58. -/
def strLe : Str → Str → Bool
  | [], _ => true
  | _ :: _, [] => false
  | a :: as, b :: bs => if a < b then true else if b < a then false else strLe as bs

/-- Test whether `s` starts with `p`; models
`String.prototype.startsWith`. -/
def strStarts : Str → Str → Bool
  | _, [] => true
  | [], _ :: _ => false
  | c :: cs, d :: ds => c == d && strStarts cs ds

/-- Test whether `s` ends with `suf`; models
`String.prototype.endsWith`. -/
def strEnds (s suf : Str) : Bool := strStarts s.reverse suf.reverse

/-- Models `String.prototype.split(sep)` for a single-character
separator: `"".split(sep)` is `[""]`, separators at the ends produce
empty pieces. -/
def splitOnChar (sep : Char) : Str → List Str
  | [] => [[]]
  | c :: rest =>
    if c = sep then [] :: splitOnChar sep rest
    else
      match splitOnChar sep rest with
      | [] => [[c]]
      | h :: t => (c :: h) :: t

/-- Models `String.prototype.trim` (whitespace at both ends removed;
for the pipeline only emptiness of the result is ever inspected). -/
def jsTrim (s : Str) : Str :=
  ((s.dropWhile Char.isWhitespace).reverse.dropWhile Char.isWhitespace).reverse

/-- Substring test, used to state facts about the formatted
document. -/
def strContains (hay needle : Str) : Bool :=
  (List.range (hay.length + 1)).any (fun i => strStarts (hay.drop i) needle)

/-- Models `Array.prototype.join('/')`. -/
def joinSlash : List Str → Str
  | [] => []
  | [p] => p
  | p :: q :: rest => p ++ '/' :: joinSlash (q :: rest)

/-- Index of the last `'.'` in a string, if any. -/
def lastDotIdx : Str → Option Nat
  | [] => none
  | c :: rest =>
    match lastDotIdx rest with
    | some i => some (i + 1)
    | none => if c = '.' then some 0 else none

/-- Node's `path.extname` on a single path segment: the substring from
the last dot, except that a name with no dot, a name whose only dot is
the leading character (hidden-file convention), and the special name
`".."` all yield `""`. -/
def extnameOfBase (b : Str) : Str :=
  if b = str ".." then []
  else
    match lastDotIdx b with
    | none => []
    | some 0 => []
    | some i => b.drop i

/-- Models `path.extname`: the extension of the final path segment. -/
def extname (s : Str) : Str := extnameOfBase ((splitOnChar '/' s).getLastD [])

/-- routes.ts lines 48-50: `path.extname(filename).toLowerCase()`. -/
def getFileExtension (filename : Str) : Str := (extname filename).map Char.toLower

/-- routes.ts lines 26-33: extensions whose file contents are embedded. -/
def ALLOWED_EXTENSIONS : List Str :=
  [str ".js", str ".jsx", str ".ts", str ".tsx", str ".py", str ".java",
   str ".cpp", str ".c", str ".h", str ".cs",
   str ".php", str ".rb", str ".go", str ".rs", str ".swift", str ".kt",
   str ".scala", str ".clj", str ".hs",
   str ".html", str ".htm", str ".css", str ".scss", str ".sass",
   str ".less", str ".xml", str ".svg",
   str ".json", str ".yaml", str ".yml", str ".toml", str ".ini",
   str ".cfg", str ".config",
   str ".md", str ".txt", str ".rst", str ".adoc", str ".tex",
   str ".sql", str ".sh", str ".bat", str ".ps1", str ".dockerfile",
   str ".gitignore", str ".env"]

/-- routes.ts lines 36-41: path segments ignored outright. -/
def IGNORE_PATTERNS : List Str :=
  [str "node_modules", str ".git", str ".svn", str ".hg", str "dist",
   str "build", str "target",
   str ".next", str ".nuxt", str "coverage", str ".nyc_output",
   str ".cache", str "logs",
   str "__pycache__", str ".pytest_cache", str ".tox", str "venv",
   str "env",
   str ".DS_Store", str "Thumbs.db", str ".vscode", str ".idea"]

/-- routes.ts lines 43-46: a path is ignored when any `/`-separated
segment is a listed pattern or begins with a dot. -/
def shouldIgnore (filePath : Str) : Bool :=
  (splitOnChar '/' filePath).any
    (fun part => IGNORE_PATTERNS.contains part || strStarts part (str "."))

/-- routes.ts lines 119-155: extension to fenced-code-block language
tag, defaulting to `"text"`. -/
def langMap : List (Str × Str) :=
  [(str ".js", str "javascript"), (str ".jsx", str "jsx"),
   (str ".ts", str "typescript"), (str ".tsx", str "tsx"),
   (str ".py", str "python"), (str ".java", str "java"),
   (str ".cpp", str "cpp"), (str ".c", str "c"), (str ".h", str "c"),
   (str ".cs", str "csharp"), (str ".php", str "php"),
   (str ".rb", str "ruby"), (str ".go", str "go"), (str ".rs", str "rust"),
   (str ".swift", str "swift"), (str ".kt", str "kotlin"),
   (str ".scala", str "scala"), (str ".html", str "html"),
   (str ".htm", str "html"), (str ".css", str "css"),
   (str ".scss", str "scss"), (str ".sass", str "sass"),
   (str ".json", str "json"), (str ".yaml", str "yaml"),
   (str ".yml", str "yaml"), (str ".xml", str "xml"),
   (str ".svg", str "xml"), (str ".md", str "markdown"),
   (str ".sql", str "sql"), (str ".sh", str "bash"),
   (str ".dockerfile", str "dockerfile")]

def getLanguageFromExtension (ext : Str) : Str :=
  match langMap.lookup ext with
  | some l => l
  | none => str "text"

/-- One record of the opened archive: path, directory flag, byte size
(`entry.header.size`), and the on-demand decoded content
(`none` models a read/decode failure, i.e. an exception). -/
structure ZipEntry where
  entryName : Str
  isDirectory : Bool
  size : Nat
  data : Option Str

/-- Splits a string at its first `'/'`, if it has one: returns the part
before (slash-free) and the part after.  `indexOf('/')` returns the
length of the first component. -/
def firstSlashSplit : Str → Option (Str × Str)
  | [] => none
  | c :: rest =>
    if c = '/' then some ([], rest)
    else (firstSlashSplit rest).map (fun pq => (c :: pq.1, pq.2))

/-- routes.ts lines 61-71 and 244-254: inspect the first name; when its
first `'/'` is at a positive index, the substring up to and including
that slash is the candidate, adopted when every name starts with it. -/
def commonPfxOf : List Str → Str
  | [] => []
  | first :: rest =>
    match firstSlashSplit first with
    | none => []
    | some (before, _) =>
      if before.isEmpty then []
      else
        let cand := before ++ ['/']
        if (first :: rest).all (fun n => strStarts n cand) then cand else []

/-- routes.ts lines 75-77: remove the common prefix when present. -/
def stripPfx (pfx name : Str) : Str :=
  if strStarts name pfx then name.drop pfx.length else name

/-- routes.ts line 79: split on `'/'` and drop empty segments. -/
def pathParts (cleanPath : Str) : List Str :=
  (splitOnChar '/' cleanPath).filter (fun p => !p.isEmpty)

/-- The tree node produced by `buildFileTree`, as the tagged variant the
optional-field record denotes: `size` and `extension` are present
exactly on files, `children` exactly on folders. -/
inductive FTNode where
  | file (name pathStr : Str) (size : Nat) (ext : Str) : FTNode
  | folder (name pathStr : Str) (children : List FTNode) : FTNode

def FTNode.name : FTNode → Str
  | .file n _ _ _ => n
  | .folder n _ _ => n

def FTNode.pathStr : FTNode → Str
  | .file _ p _ _ => p
  | .folder _ p _ => p

/-- routes.ts lines 86-94: the node created for the final path segment:
a file (with size and lowercased extension) unless the entry is a
directory entry, in which case a folder with empty children. -/
def mkLeaf (e : ZipEntry) (part pathStr : Str) : FTNode :=
  if e.isDirectory then .folder part pathStr []
  else .file part pathStr e.size (getFileExtension part)

/-- Replace (in place) the children of the first node named `p`. -/
def updateAt (p : Str) (ch2 : List FTNode) : List FTNode → List FTNode
  | [] => []
  | n :: rest =>
    if n.name == p then
      (match n with
       | .folder nm pth _ => .folder nm pth ch2
       | other => other) :: rest
    else n :: updateAt p ch2 rest

/-- routes.ts lines 84-99: walk the segments, creating a node the first
time a name is seen at a level (a file only at the last segment of a
non-directory entry), then descend into its `children`.  Descending
from a file node reads `children` of `undefined`, so the next level's
access throws a `TypeError`; the error value models that exception.
`acc` is the list of already-consumed segments, so that the created
node's `path` is `parts.slice(0, index + 1).join('/')`. -/
def insertParts (e : ZipEntry) : List Str → List FTNode → List Str → Except String (List FTNode)
  | _, m, [] => .ok m
  | acc, m, [p] =>
    match m.find? (fun n => n.name == p) with
    | some _ => .ok m
    | none => .ok (m ++ [mkLeaf e p (joinSlash (acc ++ [p]))])
  | acc, m, p :: q :: rs =>
    match m.find? (fun n => n.name == p) with
    | some (.file _ _ _ _) =>
      .error "TypeError: Cannot read properties of undefined"
    | some (.folder _ _ ch) =>
      match insertParts e (acc ++ [p]) ch (q :: rs) with
      | .ok ch2 => .ok (updateAt p ch2 m)
      | .error msg => .error msg
    | none =>
      match insertParts e (acc ++ [p]) [] (q :: rs) with
      | .ok ch2 => .ok (m ++ [.folder p (joinSlash (acc ++ [p])) ch2])
      | .error msg => .error msg

/-- The ordering relation of the sort on routes.ts line 58. -/
def entryLe (a b : ZipEntry) : Prop := strLe a.entryName b.entryName = true

instance : DecidableRel entryLe := fun _ _ => inferInstanceAs (Decidable (_ = true))

/-- routes.ts lines 56-58: keep the non-ignored entries, sorted by name
(stable sort with the total byte-wise order). -/
def sortValidEntries (entries : List ZipEntry) : List ZipEntry :=
  (entries.filter (fun e => !shouldIgnore e.entryName)).insertionSort entryLe

/-- The common prefix exactly as `buildFileTree` computes it
(routes.ts lines 60-71): from the filtered, sorted entry names. -/
def buildPfx (entries : List ZipEntry) : Str :=
  commonPfxOf ((sortValidEntries entries).map ZipEntry.entryName)

/-- One iteration of the `validEntries.forEach` of routes.ts
lines 73-100. -/
def insertEntry (pfx : Str) (m : List FTNode) (e : ZipEntry) : Except String (List FTNode) :=
  insertParts e [] m (pathParts (stripPfx pfx e.entryName))

/-- Numeric value of a digit string, used for JavaScript's array-index
key ordering. -/
def natOfDigits (s : Str) : Nat :=
  s.foldl (fun acc c => acc * 10 + (c.toNat - 48)) 0

/-- Whether a string is a canonical array-index property key in
JavaScript: a non-empty digit string with no leading zero (except
`"0"` itself) whose value is below `2^32 - 1`.  Such own keys are
enumerated first, in ascending numeric order, by `Object.values`. -/
def isArrayIndexKey (s : Str) : Bool :=
  !s.isEmpty && s.all (fun c => c.isDigit) &&
    (s == ['0'] || !(s.headD '0' == '0')) &&
    decide (natOfDigits s < 4294967295)

/-- Ascending numeric order on array-index-named nodes. -/
def numKeyLe (a b : FTNode) : Prop := natOfDigits a.name ≤ natOfDigits b.name

instance : DecidableRel numKeyLe := fun _ _ => inferInstanceAs (Decidable (_ ≤ _))

/-- The enumeration order of `Object.values` on one level of the
node object: array-index-like keys first in ascending numeric order,
then the remaining keys in insertion order. -/
def jsKeyOrder (m : List FTNode) : List FTNode :=
  (m.filter (fun n => isArrayIndexKey n.name)).insertionSort numKeyLe ++
    m.filter (fun n => !isArrayIndexKey n.name)

mutual
/-- routes.ts lines 102-109, per node: files are returned as they are,
a folder's children object becomes the ordered array.  The JS code
applies `Object.values`' reordering at a level and then recurses into
each child; since the reordering inspects only names, which the
recursion preserves, the model recurses first (`convertEach`) and then
reorders (`jsKeyOrder`), staying structurally recursive. -/
def convertNode : FTNode → FTNode
  | .file nm pth sz ex => .file nm pth sz ex
  | .folder nm pth ch => .folder nm pth (jsKeyOrder (convertEach ch))

/-- The recursive conversion of every node of one level. -/
def convertEach : List FTNode → List FTNode
  | [] => []
  | n :: rest => convertNode n :: convertEach rest
end

/-- routes.ts lines 102-109: `convertToArray`, the recursive conversion
of the mutable nested object into ordered arrays, with `Object.values`'
key-enumeration order at every level. -/
def convertToArray (m : List FTNode) : List FTNode := jsKeyOrder (convertEach m)

/-- routes.ts lines 52-110: filter, sort, strip, insert every entry,
then convert the accumulated object into the returned forest. -/
def buildFileTree (entries : List ZipEntry) : Except String (List FTNode) :=
  match (sortValidEntries entries).foldlM (insertEntry (buildPfx entries)) [] with
  | .error msg => .error msg
  | .ok root => .ok (convertToArray root)

/-- routes.ts lines 244-254: the prefix used for content lookup,
computed from the full unfiltered, unsorted entry list. -/
def routePfx (entries : List ZipEntry) : Str :=
  commonPfxOf (entries.map ZipEntry.entryName)

/-- routes.ts line 228: find the archive entry for a tree node, by
exact prefixed path or by the `endsWith('/' + path)` fallback. -/
def findMatchingEntry (entries : List ZipEntry) (pfx nodePath : Str) : Option ZipEntry :=
  entries.find? (fun e => e.entryName == pfx ++ nodePath || strEnds e.entryName ('/' :: nodePath))

/-- routes.ts lines 112-117. -/
def formatFileContent (filename content : Str) : Str :=
  str "### " ++ filename ++ str "\n```"
    ++ getLanguageFromExtension (getFileExtension filename)
    ++ str "\n" ++ content ++ str "\n```\n\n"

/-- The mutable accumulators of the upload route (routes.ts
lines 206-213): counters plus the growing formatted document. -/
structure ProcState where
  totalFiles : Nat
  totalFolders : Nat
  linesOfCode : Nat
  doc : Str

mutual
/-- routes.ts lines 215-241: `processNode`, as a fold over the state. -/
def processNode (entries : List ZipEntry) (pfx : Str) (s : ProcState) : FTNode → ProcState
  | .folder _ _ ch =>
    processForest entries pfx { s with totalFolders := s.totalFolders + 1 } ch
  | .file nm pathStr _ _ =>
    let s1 := { s with totalFiles := s.totalFiles + 1 }
    if ALLOWED_EXTENSIONS.contains (getFileExtension nm) then
      match findMatchingEntry entries pfx pathStr with
      | some e =>
        if e.isDirectory then s1
        else
          match e.data with
          | none => s1
          | some content =>
            if (jsTrim content).isEmpty then s1
            else { s1 with
                     doc := s1.doc ++ formatFileContent pathStr content,
                     linesOfCode := s1.linesOfCode + (splitOnChar '\n' content).length }
      | none => s1
    else s1

/-- The walk over a node list: `node.children.forEach(...)` inside
`processNode`, and the top-level `fileTree.forEach` of routes.ts
line 256. -/
def processForest (entries : List ZipEntry) (pfx : Str) (s : ProcState) : List FTNode → ProcState
  | [] => s
  | n :: rest => processForest entries pfx (processNode entries pfx s n) rest
end

mutual
/-- routes.ts lines 157-174: the ASCII tree rendering, one line per
node, recursing into non-empty children with the extended running
visual prefix. -/
def genTreeStr (pre : Str) : List FTNode → Str
  | [] => []
  | [n] => genTreeLine pre true n
  | n :: m :: rest => genTreeLine pre false n ++ genTreeStr pre (m :: rest)

def genTreeLine (pre : Str) (isLastItem : Bool) : FTNode → Str
  | .file nm _ _ _ =>
    pre ++ (if isLastItem then str "└── " else str "├── ") ++ str "📄 " ++ nm ++ str "\n"
  | .folder nm _ ch =>
    pre ++ (if isLastItem then str "└── " else str "├── ") ++ str "📁 " ++ nm ++ str "\n"
      ++ (if ch.isEmpty then []
          else genTreeStr (pre ++ (if isLastItem then str "    " else str "│   ")) ch)
end

/-- routes.ts lines 206-209: the document before the file-contents
walk. -/
def headerOf (tree : List FTNode) : Str :=
  str "# Project Structure and Contents\n\n## File Tree\n\n```\n"
    ++ genTreeStr [] tree
    ++ str "```\n\n## File Contents\n\n"

/-- The whole upload-route core (routes.ts lines 197-267, without the
wall-clock and byte-size display strings): build the tree, then walk it
with the route-level common prefix, starting from zero counters and the
header document. -/
def runPipeline (entries : List ZipEntry) : Except String (List FTNode × ProcState) :=
  match buildFileTree entries with
  | .error msg => .error msg
  | .ok tree =>
    .ok (tree,
      processForest entries (routePfx entries)
        { totalFiles := 0, totalFolders := 0, linesOfCode := 0, doc := headerOf tree } tree)

/-- Projection: the final `linesOfCode` of a run, when the run does not
abort. -/
def pipelineLines (entries : List ZipEntry) : Option Nat :=
  (runPipeline entries).toOption.map (fun x => x.2.linesOfCode)

/-- Projection: the final formatted document of a run. -/
def pipelineDoc (entries : List ZipEntry) : Option Str :=
  (runPipeline entries).toOption.map (fun x => x.2.doc)

mutual
/-- Specification-side count of File-kind nodes, by full traversal. -/
def countFiles : FTNode → Nat
  | .file _ _ _ _ => 1
  | .folder _ _ ch => countFilesF ch

def countFilesF : List FTNode → Nat
  | [] => 0
  | n :: rest => countFiles n + countFilesF rest
end

mutual
/-- Specification-side count of Folder-kind nodes, by full traversal. -/
def countFolders : FTNode → Nat
  | .file _ _ _ _ => 0
  | .folder _ _ ch => 1 + countFoldersF ch

def countFoldersF : List FTNode → Nat
  | [] => 0
  | n :: rest => countFolders n + countFoldersF rest
end

mutual
/-- Specification-side list of the contents actually embedded by the
walk (§8 "line-count additivity"): the decision logic of
routes.ts lines 223-234, collected instead of summed. -/
def embeddedOfNode (entries : List ZipEntry) (pfx : Str) : FTNode → List Str
  | .folder _ _ ch => embeddedOfForest entries pfx ch
  | .file nm pathStr _ _ =>
    if ALLOWED_EXTENSIONS.contains (getFileExtension nm) then
      match findMatchingEntry entries pfx pathStr with
      | some e =>
        if e.isDirectory then []
        else
          match e.data with
          | none => []
          | some content => if (jsTrim content).isEmpty then [] else [content]
      | none => []
    else []

def embeddedOfForest (entries : List ZipEntry) (pfx : Str) : List FTNode → List Str
  | [] => []
  | n :: rest => embeddedOfNode entries pfx n ++ embeddedOfForest entries pfx rest
end

mutual
/-- Every folder in the (sub)tree has a non-empty children list. -/
def foldersNonEmpty : FTNode → Bool
  | .file _ _ _ _ => true
  | .folder _ _ ch => !ch.isEmpty && foldersNonEmptyF ch

def foldersNonEmptyF : List FTNode → Bool
  | [] => true
  | n :: rest => foldersNonEmpty n && foldersNonEmptyF rest
end

mutual
/-- No node name in the (sub)tree begins with a dot. -/
def dotFree : FTNode → Bool
  | .file nm _ _ _ => !strStarts nm (str ".")
  | .folder nm _ ch => !strStarts nm (str ".") && dotFreeF ch

def dotFreeF : List FTNode → Bool
  | [] => true
  | n :: rest => dotFree n && dotFreeF rest
end

/-- Navigate a forest along a list of folder names: `childrenAt m segs`
is the children list of the folder reached from `m` through `segs`
(`some m` itself for `[]`), `none` when the walk leaves the tree or
meets a file. -/
def childrenAt (m : List FTNode) : List Str → Option (List FTNode)
  | [] => some m
  | s :: rest =>
    match m.find? (fun n => n.name == s) with
    | some (.folder _ _ ch) => childrenAt ch rest
    | _ => none

/-- The segment list an entry contributes to the tree. -/
def entrySegs (pfx : Str) (e : ZipEntry) : List Str :=
  pathParts (stripPfx pfx e.entryName)

/-- Does entry `e` reach the tree position `segs` (create it or pass
through it)? -/
def segsReach (pfx : Str) (e : ZipEntry) (segs : List Str) : Bool :=
  segs.isPrefixOf (entrySegs pfx e)

/-- The first entry of the list reaching `segs`: for the sorted entry
list this is the entry that created the node there, and its
`entryName` is the node's full original (pre-strip) path. -/
def creatorIn (pfx : Str) (segs : List Str) : List ZipEntry → Option ZipEntry
  | [] => none
  | e :: es => if segsReach pfx e segs then some e else creatorIn pfx segs es

/-- Entry `a` occurs no later than entry `b` in `L`. -/
def entryBefore (L : List ZipEntry) (a b : ZipEntry) : Prop :=
  [a, b].Sublist L ∨ a = b

/-- Soundness of a partially built forest: every node name at every
level (addressed relative to `base`) was put there by one of the
already processed entries `done`. -/
def SoundM (done : List ZipEntry) (pfx : Str) (base : List Str) (m : List FTNode) : Prop :=
  ∀ Q cs, childrenAt m Q = some cs → ∀ s ∈ cs.map FTNode.name,
    ∃ d ∈ done, segsReach pfx d (base ++ Q ++ [s]) = true

/-- Completeness of a partially built forest: every position reached by
an already processed entry is present. -/
def CompM (done : List ZipEntry) (pfx : Str) (base : List Str) (m : List FTNode) : Prop :=
  ∀ d ∈ done, ∀ Q s, segsReach pfx d (base ++ Q ++ [s]) = true →
    ∃ cs, childrenAt m Q = some cs ∧ s ∈ cs.map FTNode.name

/-- Name uniqueness of a partially built forest: at every level no two
nodes share a name (an object has one value per key). -/
def UniqM (m : List FTNode) : Prop :=
  ∀ Q cs, childrenAt m Q = some cs → (cs.map FTNode.name).Nodup

/-- Sibling ordering of a partially built forest: at every level the
nodes' creating entries (first entry of `L` reaching the position)
exist and occur in `L`-order. -/
def OrdM (L : List ZipEntry) (pfx : Str) (base : List Str) (m : List FTNode) : Prop :=
  ∀ Q cs, childrenAt m Q = some cs →
    (cs.map FTNode.name).Pairwise (fun s1 s2 => ∃ eu ev,
      creatorIn pfx (base ++ Q ++ [s1]) L = some eu ∧
      creatorIn pfx (base ++ Q ++ [s2]) L = some ev ∧ entryBefore L eu ev)

/-- One application of the §4.2 normalizer to a list of entry paths:
detect the common prefix and strip it from every path
(routes.ts lines 60-71 and 73-77). -/
def normalizeOnce (names : List Str) : List Str :=
  names.map (fun n => stripPfx (commonPfxOf names) n)

/-- The concrete archive of the §8 scenario: `proj/src/a.py` with one
code line, empty `proj/src/b.txt`, and an ignored
`proj/node_modules/x.js`. -/
def scnEntries : List ZipEntry :=
  [⟨str "proj/src/a.py", false, 9, some (str "print(1)\n")⟩,
   ⟨str "proj/src/b.txt", false, 0, some (str "")⟩,
   ⟨str "proj/node_modules/x.js", false, 5, some (str "zzz")⟩]

/-- An archive with a surviving directory entry `a/` that has no
descendants, plus an unrelated file. -/
def dirEntryArchive : List ZipEntry :=
  [⟨str "a/", true, 0, none⟩, ⟨str "b.txt", false, 3, some (str "hi")⟩]

/-- An archive in which the file entry `a` is followed (in sorted
order) by `a/b.txt`, which needs `a` as a folder ancestor. -/
def collisionArchive : List ZipEntry :=
  [⟨str "a", false, 1, some (str "x")⟩,
   ⟨str "a/b.txt", false, 1, some (str "y")⟩]

/-- An archive whose first raw entry is ignored: the filtered list
shares the top-level folder `proj`, the unfiltered list does not. -/
def mixedIgnoreArchive : List ZipEntry :=
  [⟨str "node_modules/x.js", false, 1, none⟩,
   ⟨str "proj/a.py", false, 1, some (str "p")⟩]

/-- An archive holding one file named `foo.env`. -/
def dotEnvArchive : List ZipEntry :=
  [⟨str "foo.env", false, 1, some (str "X")⟩]

/-- Paths that still share the top-level folder `b` after `a/` is
stripped. -/
def nestedNames : List Str := [str "a/b/x", str "a/b/y"]

/-- An archive whose two top-level folders have array-index-like
names: `Object.values` enumerates them numerically, not in the entry
sort order. -/
def numFolderArchive : List ZipEntry :=
  [⟨str "10/a.md", false, 1, none⟩, ⟨str "2/b.md", false, 1, none⟩]

/-- A one-file archive used to instantiate universally quantified
theorems: the file's text is blank. -/
def blankFileArchive : List ZipEntry :=
  [⟨str "c.md", false, 4, some (str "  \n ")⟩]

/-- The tree the pipeline builds for `blankFileArchive`. -/
def blankTree : List FTNode := [.file (str "c.md") (str "c.md") 4 (str ".md")]

/-- The document the pipeline produces for `blankFileArchive`: the
blank file is skipped, so only the header remains. -/
def blankDoc : Str :=
  str "# Project Structure and Contents\n\n## File Tree\n\n```\n└── 📄 c.md\n```\n\n## File Contents\n\n"

/-- The final accumulator state of the run on `blankFileArchive`. -/
def blankSt : ProcState := ⟨1, 0, 0, blankDoc⟩

/-! ## Concrete evaluations refuting individual specification claims -/

/-- C1 counterexample: on `dirEntryArchive` the build succeeds and
returns a Folder node `a` whose children list is present but empty, so
not every Folder node of a returned forest has non-empty children. -/
theorem claim1_counterexample :
    buildFileTree dirEntryArchive =
      .ok [.folder (str "a") (str "a") [],
           .file (str "b.txt") (str "b.txt") 3 (str ".txt")] ∧
    (buildFileTree dirEntryArchive).toOption.map foldersNonEmptyF = some false :=
  ⟨rfl, rfl⟩

/-- C2 counterexample: on the §8 scenario archive the pipeline's final
`linesOfCode` is `2` (`"print(1)\n".split('\n')` has two parts), not
`1` as the claim states. -/
theorem claim2_counterexample :
    pipelineLines scnEntries = some 2 ∧ pipelineLines scnEntries ≠ some 1 :=
  ⟨rfl, by decide⟩

/-- C4 counterexample: with an ignored first entry, `buildFileTree`'s
prefix (from the filtered sorted list) is `"proj/"` while the upload
route's prefix (from the unfiltered list) is `""`. -/
theorem claim4_counterexample :
    buildPfx mixedIgnoreArchive = str "proj/" ∧
    routePfx mixedIgnoreArchive = [] ∧
    buildPfx mixedIgnoreArchive ≠ routePfx mixedIgnoreArchive :=
  ⟨rfl, rfl, by decide⟩

/-- C5 counterexample: a File entry `a` followed in sorted order by
`a/b.txt` makes `buildFileTree` abort with the modelled `TypeError`
instead of returning a first-write-wins tree. -/
theorem claim5_counterexample :
    buildFileTree collisionArchive =
      .error "TypeError: Cannot read properties of undefined" :=
  rfl

/-- C9 counterexample: one application of the normalizer to
`["a/b/x", "a/b/y"]` yields `["b/x", "b/y"]`, on which a second
application detects the further prefix `"b/"`, so the normalizer is not
idempotent. -/
theorem claim9_counterexample :
    normalizeOnce nestedNames = [str "b/x", str "b/y"] ∧
    commonPfxOf (normalizeOnce nestedNames) = str "b/" ∧
    commonPfxOf (normalizeOnce nestedNames) ≠ [] :=
  ⟨rfl, rfl, by decide⟩

/-- C10 counterexample: `.env` is in the allow-list, the file
`foo.env` has exactly that extension, survives the ignore filter, and
its content is embedded — so the `.env` allow-list entry can cause an
embedding. -/
theorem claim10_counterexample :
    ALLOWED_EXTENSIONS.contains (str ".env") = true ∧
    getFileExtension (str "foo.env") = str ".env" ∧
    shouldIgnore (str "foo.env") = false ∧
    (pipelineDoc dotEnvArchive).map (fun d => strContains d (str "### foo.env")) =
      some true :=
  ⟨rfl, rfl, rfl, rfl⟩

set_option maxRecDepth 40000 in
/-- C2 (amended): on the §8 scenario archive both prefix computations
detect `"proj/"`; the tree has the single root folder `src` with
children `a.py` and `b.txt` and no `node_modules` node; the document
contains a `### src/a.py` block and no `### src/b.txt` block; and the
stats are `totalFiles = 2`, `totalFolders = 1` and — as the code's
`split('\n').length` dictates — `linesOfCode = 2`. -/
theorem claim2_amended :
    buildPfx scnEntries = str "proj/" ∧
    routePfx scnEntries = str "proj/" ∧
    buildFileTree scnEntries = .ok
      [.folder (str "src") (str "src")
        [.file (str "a.py") (str "src/a.py") 9 (str ".py"),
         .file (str "b.txt") (str "src/b.txt") 0 (str ".txt")]] ∧
    (pipelineDoc scnEntries).map (fun d => strContains d (str "### src/a.py")) = some true ∧
    (pipelineDoc scnEntries).map (fun d => strContains d (str "### src/b.txt")) = some false ∧
    (runPipeline scnEntries).toOption.map
      (fun x => (x.2.totalFiles, x.2.totalFolders, x.2.linesOfCode)) = some (2, 1, 2) :=
  ⟨rfl, rfl, rfl, rfl, rfl, rfl⟩

/-! ## Statistics: counters versus full-traversal counts -/

mutual
theorem processNode_counts (entries : List ZipEntry) (pfx : Str) (s : ProcState) :
    ∀ n : FTNode,
      (processNode entries pfx s n).totalFiles = s.totalFiles + countFiles n ∧
      (processNode entries pfx s n).totalFolders = s.totalFolders + countFolders n
  | .file nm p sz ex => by
    unfold processNode countFiles countFolders
    split
    · split
      · split
        · simp
        · split
          · simp
          · split <;> simp
      · simp
    · simp
  | .folder nm p ch => by
    have h := processForest_counts entries pfx { s with totalFolders := s.totalFolders + 1 } ch
    unfold processNode countFiles countFolders
    rw [h.1, h.2]
    exact ⟨by simp, by simp; omega⟩

theorem processForest_counts (entries : List ZipEntry) (pfx : Str) (s : ProcState) :
    ∀ l : List FTNode,
      (processForest entries pfx s l).totalFiles = s.totalFiles + countFilesF l ∧
      (processForest entries pfx s l).totalFolders = s.totalFolders + countFoldersF l
  | [] => by
    unfold processForest countFilesF countFoldersF
    simp
  | n :: rest => by
    have h1 := processNode_counts entries pfx s n
    have h2 := processForest_counts entries pfx (processNode entries pfx s n) rest
    unfold processForest countFilesF countFoldersF
    rw [h2.1, h2.2, h1.1, h1.2]
    omega
end

/-- C7: for every run of the pipeline, the final `totalFiles` equals the
number of File-kind nodes of the returned tree and `totalFolders` the
number of Folder-kind nodes, both by full traversal. -/
theorem claim7_counts (entries : List ZipEntry) (tree : List FTNode) (st : ProcState)
    (h : runPipeline entries = .ok (tree, st)) :
    st.totalFiles = countFilesF tree ∧ st.totalFolders = countFoldersF tree := by
  unfold runPipeline at h
  cases hb : buildFileTree entries with
  | error msg => rw [hb] at h; cases h
  | ok t =>
    rw [hb] at h
    simp only [Except.ok.injEq, Prod.mk.injEq] at h
    obtain ⟨rfl, rfl⟩ := h
    have hc := processForest_counts entries (routePfx entries)
      { totalFiles := 0, totalFolders := 0, linesOfCode := 0, doc := headerOf t } t
    simpa using hc

/-- Witness for C7 at the concrete `blankFileArchive` run. -/
theorem claim7_counts_witness :
    blankSt.totalFiles = countFilesF blankTree ∧
    blankSt.totalFolders = countFoldersF blankTree :=
  claim7_counts blankFileArchive blankTree blankSt rfl

/-! ## Line counting: the counter versus the embedded contents -/

mutual
theorem processNode_lines (entries : List ZipEntry) (pfx : Str) (s : ProcState) :
    ∀ n : FTNode,
      (processNode entries pfx s n).linesOfCode =
        s.linesOfCode +
          ((embeddedOfNode entries pfx n).map (fun c => (splitOnChar '\n' c).length)).sum
  | .file nm p sz ex => by
    unfold processNode embeddedOfNode
    split
    · split
      · split
        · simp
        · split
          · simp
          · split <;> simp
      · simp
    · simp
  | .folder nm p ch => by
    have h := processForest_lines entries pfx { s with totalFolders := s.totalFolders + 1 } ch
    unfold processNode embeddedOfNode
    rw [h]

theorem processForest_lines (entries : List ZipEntry) (pfx : Str) (s : ProcState) :
    ∀ l : List FTNode,
      (processForest entries pfx s l).linesOfCode =
        s.linesOfCode +
          ((embeddedOfForest entries pfx l).map (fun c => (splitOnChar '\n' c).length)).sum
  | [] => by
    unfold processForest embeddedOfForest
    simp
  | n :: rest => by
    have h1 := processNode_lines entries pfx s n
    have h2 := processForest_lines entries pfx (processNode entries pfx s n) rest
    unfold processForest embeddedOfForest
    rw [h2, h1]
    simp
    omega
end

/-- C6: for every run, the final `linesOfCode` equals the sum, over
exactly the files whose content was embedded in the document, of the
number of newline-split parts of the raw content; files skipped for
extension, emptiness, directory-entry match, lookup failure or decode
failure contribute nothing to `embeddedOfForest` and hence zero. -/
theorem claim6_lines (entries : List ZipEntry) (tree : List FTNode) (st : ProcState)
    (h : runPipeline entries = .ok (tree, st)) :
    st.linesOfCode =
      ((embeddedOfForest entries (routePfx entries) tree).map
        (fun c => (splitOnChar '\n' c).length)).sum := by
  unfold runPipeline at h
  cases hb : buildFileTree entries with
  | error msg => rw [hb] at h; cases h
  | ok t =>
    rw [hb] at h
    simp only [Except.ok.injEq, Prod.mk.injEq] at h
    obtain ⟨rfl, rfl⟩ := h
    have hc := processForest_lines entries (routePfx entries)
      { totalFiles := 0, totalFolders := 0, linesOfCode := 0, doc := headerOf t } t
    simpa using hc

/-- Witness for C6 at the concrete `blankFileArchive` run. -/
theorem claim6_lines_witness :
    blankSt.linesOfCode =
      ((embeddedOfForest blankFileArchive (routePfx blankFileArchive) blankTree).map
        (fun c => (splitOnChar '\n' c).length)).sum :=
  claim6_lines blankFileArchive blankTree blankSt rfl

/-- C8: a File node with a processable extension whose entry lookup
fails, matches a directory entry, fails to decode, or decodes to an
empty or whitespace-only text, is counted in `totalFiles` but changes
nothing else — no content block, no line count — and the walk simply
proceeds with the remaining nodes. -/
theorem claim8_skip (entries : List ZipEntry) (pfx : Str) (s : ProcState)
    (nm p : Str) (sz : Nat) (ex : Str) (rest : List FTNode)
    (hext : ALLOWED_EXTENSIONS.contains (getFileExtension nm) = true)
    (hfail :
      findMatchingEntry entries pfx p = none ∨
      (∃ e, findMatchingEntry entries pfx p = some e ∧ e.isDirectory = true) ∨
      (∃ e, findMatchingEntry entries pfx p = some e ∧ e.isDirectory = false ∧
        e.data = none) ∨
      (∃ e c, findMatchingEntry entries pfx p = some e ∧ e.isDirectory = false ∧
        e.data = some c ∧ jsTrim c = [])) :
    processNode entries pfx s (.file nm p sz ex) =
      { s with totalFiles := s.totalFiles + 1 } ∧
    processForest entries pfx s (FTNode.file nm p sz ex :: rest) =
      processForest entries pfx (processNode entries pfx s (.file nm p sz ex)) rest := by
  refine ⟨?_, rfl⟩
  unfold processNode
  rcases hfail with hnone | ⟨e, he, hd⟩ | ⟨e, he, hd, hn⟩ | ⟨e, c, he, hd, hc, ht⟩
  · simp [hext, hnone]
  · simp [hext, he, hd]
  · simp [hext, he, hd, hn]
  · simp [hext, he, hd, hc, ht]

/-- Witness for C8: a lone `a.py` file node with no matching archive
entry is counted and the walk continues. -/
theorem claim8_skip_witness :
    processNode [] [] ⟨0, 0, 0, []⟩ (.file (str "a.py") (str "a.py") 1 (str ".py")) =
      { (⟨0, 0, 0, []⟩ : ProcState) with totalFiles := (0 : Nat) + 1 } ∧
    processForest [] [] ⟨0, 0, 0, []⟩ (FTNode.file (str "a.py") (str "a.py") 1 (str ".py") :: []) =
      processForest [] []
        (processNode [] [] ⟨0, 0, 0, []⟩ (.file (str "a.py") (str "a.py") 1 (str ".py"))) [] :=
  claim8_skip [] [] ⟨0, 0, 0, []⟩ (str "a.py") (str "a.py") 1 (str ".py") [] rfl
    (Or.inl rfl)

theorem strStarts_iff : ∀ (s p : Str), strStarts s p = true ↔ p <+: s
  | s, [] => by cases s <;> simp [strStarts]
  | [], c :: cs => by
    rw [show strStarts [] (c :: cs) = false from rfl]
    simp [List.prefix_nil]
  | c :: cs, d :: ds => by
    rw [show strStarts (c :: cs) (d :: ds) = (c == d && strStarts cs ds) from rfl]
    rw [Bool.and_eq_true, beq_iff_eq, List.cons_prefix_cons, strStarts_iff cs ds]
    exact ⟨fun h => ⟨h.1.symm, h.2⟩, fun h => ⟨h.1.symm, h.2⟩⟩

theorem firstSlashSplit_eq : ∀ {s b a : Str}, firstSlashSplit s = some (b, a) →
    s = b ++ '/' :: a ∧ '/' ∉ b
  | [], b, a => by simp [firstSlashSplit]
  | c :: rest, b, a => by
    unfold firstSlashSplit
    by_cases hc : c = '/'
    · simp only [hc, if_pos rfl, Option.some.injEq, Prod.mk.injEq]
      rintro ⟨rfl, rfl⟩
      simp
    · simp only [if_neg hc, Option.map_eq_some']
      rintro ⟨⟨b', a'⟩, hfs, heq⟩
      obtain ⟨hs, hnb⟩ := firstSlashSplit_eq hfs
      simp only [Prod.mk.injEq] at heq
      obtain ⟨rfl, rfl⟩ := heq
      constructor
      · simp [hs]
      · simp only [List.mem_cons, not_or]
        exact ⟨fun h => hc h.symm, hnb⟩

theorem firstSlashSplit_of : ∀ {b : Str}, ∀ (a : Str), '/' ∉ b →
    firstSlashSplit (b ++ '/' :: a) = some (b, a)
  | [], a => by simp [firstSlashSplit]
  | c :: b', a => by
    intro hnb
    have hc : ¬c = '/' := by
      intro h
      exact hnb (by simp [h])
    have hb' : '/' ∉ b' := fun h => hnb (List.mem_cons_of_mem _ h)
    unfold firstSlashSplit
    simp [hc, firstSlashSplit_of a hb']

theorem commonPfxOf_cons_none {first : Str} {rest : List Str}
    (h : firstSlashSplit first = none) : commonPfxOf (first :: rest) = [] := by
  simp only [commonPfxOf, h]

theorem commonPfxOf_cons_some {first : Str} {rest : List Str} {b a : Str}
    (h : firstSlashSplit first = some (b, a)) :
    commonPfxOf (first :: rest) =
      (if b.isEmpty then []
       else if (first :: rest).all (fun n => strStarts n (b ++ ['/'])) then b ++ ['/']
       else []) := by
  simp only [commonPfxOf, h]

theorem commonPfxOf_shape {names : List Str} (h : commonPfxOf names ≠ []) :
    ∃ b : Str, b ≠ [] ∧ '/' ∉ b ∧ commonPfxOf names = b ++ ['/'] ∧
      ∀ n ∈ names, (b ++ ['/']) <+: n := by
  match names with
  | [] => exact absurd rfl h
  | first :: rest =>
    cases hfs : firstSlashSplit first with
    | none => rw [commonPfxOf_cons_none hfs] at h; exact absurd rfl h
    | some pq =>
      obtain ⟨b, a⟩ := pq
      rw [commonPfxOf_cons_some hfs] at h ⊢
      by_cases hb : b.isEmpty
      · rw [if_pos hb] at h; exact absurd rfl h
      · rw [if_neg hb] at h ⊢
        by_cases hall : ((first :: rest).all (fun n => strStarts n (b ++ ['/'])) : Bool)
        · rw [if_pos hall] at h ⊢
          refine ⟨b, by simpa [List.isEmpty_iff] using hb, (firstSlashSplit_eq hfs).2, rfl, ?_⟩
          intro n hn
          exact (strStarts_iff n (b ++ ['/'])).mp (List.all_eq_true.mp hall n hn)
        · rw [if_neg hall] at h; exact absurd rfl h

theorem commonPfxOf_of_shared {first : Str} {rest : List Str} {b : Str}
    (hb : b ≠ []) (hnb : '/' ∉ b)
    (hall : ∀ n ∈ first :: rest, (b ++ ['/']) <+: n) :
    commonPfxOf (first :: rest) = b ++ ['/'] := by
  obtain ⟨t, ht⟩ := hall first (by simp)
  have hfirst : first = b ++ '/' :: t := by
    rw [← ht]; simp
  rw [hfirst, commonPfxOf_cons_some (firstSlashSplit_of t hnb)]
  rw [if_neg (by simpa [List.isEmpty_iff] using hb)]
  rw [if_pos]
  rw [List.all_eq_true]
  intro n hn
  rw [← hfirst] at hn
  exact (strStarts_iff n (b ++ ['/'])).mpr (hall n hn)

theorem slash_tops_eq : ∀ {n b1 b2 : Str}, '/' ∉ b1 → '/' ∉ b2 →
    (b1 ++ ['/']) <+: n → (b2 ++ ['/']) <+: n → b1 = b2
  | [], b1, b2 => by
    intro _ _ h1 _
    exfalso
    have := List.prefix_nil.mp h1
    simpa using congrArg List.length this
  | c :: n', b1, b2 => by
    intro hn1 hn2 h1 h2
    match b1, b2 with
    | [], [] => rfl
    | [], d2 :: b2' =>
      exfalso
      simp only [List.nil_append, List.cons_prefix_cons] at h1
      simp only [List.cons_append, List.cons_prefix_cons] at h2
      exact hn2 (by simp [h2.1.trans h1.1.symm, h1.1])
    | d1 :: b1', [] =>
      exfalso
      simp only [List.nil_append, List.cons_prefix_cons] at h2
      simp only [List.cons_append, List.cons_prefix_cons] at h1
      exact hn1 (by simp [h1.1.trans h2.1.symm, h2.1])
    | d1 :: b1', d2 :: b2' =>
      simp only [List.cons_append, List.cons_prefix_cons] at h1 h2
      have hb1' : '/' ∉ b1' := fun h => hn1 (List.mem_cons_of_mem _ h)
      have hb2' : '/' ∉ b2' := fun h => hn2 (List.mem_cons_of_mem _ h)
      have := slash_tops_eq hb1' hb2' h1.2 h2.2
      rw [h1.1, h2.1, this]

theorem commonPfxOf_perm_aux (names names' : List Str) (hp : names.Perm names')
    (h : commonPfxOf names ≠ []) : commonPfxOf names' = commonPfxOf names := by
  obtain ⟨b, hb, hnb, heq, hall⟩ := commonPfxOf_shape h
  match names' with
  | [] =>
    exfalso
    rw [hp.eq_nil] at h
    exact h rfl
  | first' :: rest' =>
    rw [heq]
    exact commonPfxOf_of_shared hb hnb (fun n hn => hall n (hp.mem_iff.mpr hn))

theorem commonPfxOf_perm {names names' : List Str} (hp : names.Perm names') :
    commonPfxOf names = commonPfxOf names' := by
  by_cases h : commonPfxOf names = []
  · by_cases h' : commonPfxOf names' = []
    · rw [h, h']
    · exact commonPfxOf_perm_aux names' names hp.symm h'
  · exact (commonPfxOf_perm_aux names names' hp h).symm

theorem claim9_amended (names : List Str) :
    (commonPfxOf names = [] → normalizeOnce names = names) ∧
    (commonPfxOf names ≠ [] →
      ∃ b : Str, b ≠ [] ∧ '/' ∉ b ∧ commonPfxOf names = b ++ ['/'] ∧
        ∀ n ∈ names, (b ++ ['/']) <+: n) := by
  constructor
  · intro h
    unfold normalizeOnce
    rw [h]
    have : ∀ n : Str, stripPfx [] n = n := by
      intro n
      unfold stripPfx
      rw [show strStarts n [] = true from by cases n <;> rfl]
      simp
    simp [this]
  · exact commonPfxOf_shape

theorem claim9_amended_witness :
    normalizeOnce [str "x", str "y/z"] = [str "x", str "y/z"] ∧
    (∃ b : Str, b ≠ [] ∧ '/' ∉ b ∧
      commonPfxOf [str "a/x", str "a/y"] = b ++ ['/'] ∧
      ∀ n ∈ [str "a/x", str "a/y"], (b ++ ['/']) <+: n) :=
  ⟨(claim9_amended [str "x", str "y/z"]).1 rfl,
   (claim9_amended [str "a/x", str "a/y"]).2 (by decide)⟩

theorem claim4_amended (entries : List ZipEntry)
    (h : ∀ e ∈ entries, shouldIgnore e.entryName = false) :
    buildPfx entries = routePfx entries := by
  unfold buildPfx routePfx sortValidEntries
  have hf : entries.filter (fun e => !shouldIgnore e.entryName) = entries :=
    List.filter_eq_self.mpr (fun a ha => by rw [h a ha]; rfl)
  rw [hf]
  exact commonPfxOf_perm ((List.perm_insertionSort entryLe entries).map ZipEntry.entryName)

theorem claim4_amended_witness :
    buildPfx [⟨str "p/a.md", false, 1, none⟩, ⟨str "p/b.md", false, 1, none⟩] =
      routePfx [⟨str "p/a.md", false, 1, none⟩, ⟨str "p/b.md", false, 1, none⟩] :=
  claim4_amended [⟨str "p/a.md", false, 1, none⟩, ⟨str "p/b.md", false, 1, none⟩]
    (by decide)

theorem splitOnChar_append_slash : ∀ {b : Str} (t : Str), '/' ∉ b →
    splitOnChar '/' (b ++ '/' :: t) = b :: splitOnChar '/' t
  | [], t => by
    intro _
    simp [splitOnChar]
  | c :: b', t => by
    intro hnb
    have hc : ¬c = '/' := fun h => hnb (by simp [h])
    have hb' : '/' ∉ b' := fun h => hnb (List.mem_cons_of_mem _ h)
    have ih := splitOnChar_append_slash t hb'
    have heq : splitOnChar '/' ((c :: b') ++ '/' :: t) =
        match splitOnChar '/' (b' ++ '/' :: t) with
        | [] => [[c]]
        | h :: tl => (c :: h) :: tl := by
      simp only [List.cons_append, splitOnChar, if_neg hc]
      rfl
    rw [heq, ih]

theorem entrySegs_sub (pfx : Str) (e : ZipEntry)
    (hshape : pfx = [] ∨ ∃ b : Str, pfx = b ++ ['/'] ∧ '/' ∉ b) :
    ∀ p ∈ entrySegs pfx e, p ∈ splitOnChar '/' e.entryName := by
  intro p hp
  unfold entrySegs pathParts stripPfx at hp
  by_cases hs : strStarts e.entryName pfx
  · rw [if_pos hs] at hp
    rcases hshape with rfl | ⟨b, rfl, hnb⟩
    · simpa using List.mem_of_mem_filter hp
    · obtain ⟨t, ht⟩ := (strStarts_iff _ _).mp hs
      have hlen : (b ++ ['/']).length = b.length + 1 := by simp
      rw [← ht, hlen] at hp
      have hdrop : (b ++ ['/'] ++ t).drop (b.length + 1) = t := by
        have : b ++ ['/'] ++ t = (b ++ ['/']) ++ t := by simp
        rw [this]
        have := List.drop_left (b ++ ['/']) t
        simpa using this
      rw [hdrop] at hp
      have hmem : p ∈ splitOnChar '/' t := List.mem_of_mem_filter hp
      rw [← ht]
      have : b ++ ['/'] ++ t = b ++ '/' :: t := by simp
      rw [this, splitOnChar_append_slash t hnb]
      exact List.mem_cons_of_mem _ hmem
  · rw [if_neg hs] at hp
    exact List.mem_of_mem_filter hp

theorem entrySegs_dotFree (pfx : Str) (e : ZipEntry)
    (hig : shouldIgnore e.entryName = false)
    (hshape : pfx = [] ∨ ∃ b : Str, pfx = b ++ ['/'] ∧ '/' ∉ b) :
    ∀ p ∈ entrySegs pfx e, strStarts p (str ".") = false := by
  intro p hp
  have hmem := entrySegs_sub pfx e hshape p hp
  unfold shouldIgnore at hig
  rw [List.any_eq_false] at hig
  have := hig p hmem
  simp only [Bool.or_eq_true, not_or] at this
  exact Bool.not_eq_true _ ▸ (by simpa using this.2)

theorem dotFreeF_append {m : List FTNode} {x : FTNode} :
    dotFreeF (m ++ [x]) = (dotFreeF m && dotFree x) := by
  induction m with
  | nil => simp [dotFreeF]
  | cons n rest ih =>
    simp only [List.cons_append]
    unfold dotFreeF
    rw [ih, Bool.and_assoc]

theorem dotFreeF_mem {m : List FTNode} {n : FTNode}
    (h : dotFreeF m = true) (hn : n ∈ m) : dotFree n = true := by
  induction m with
  | nil => cases hn
  | cons x rest ih =>
    unfold dotFreeF at h
    rw [Bool.and_eq_true] at h
    rcases List.mem_cons.mp hn with rfl | hmem
    · exact h.1
    · exact ih h.2 hmem

theorem dotFreeF_updateAt {m : List FTNode} {p : Str} {ch2 : List FTNode}
    (h : dotFreeF m = true) (h2 : dotFreeF ch2 = true) :
    dotFreeF (updateAt p ch2 m) = true := by
  induction m with
  | nil => simpa [updateAt] using h
  | cons x rest ih =>
    unfold dotFreeF at h
    rw [Bool.and_eq_true] at h
    unfold updateAt
    by_cases hx : (x.name == p : Bool)
    · rw [if_pos hx]
      unfold dotFreeF
      rw [Bool.and_eq_true]
      refine ⟨?_, h.2⟩
      match x, h.1 with
      | .file nm pth sz ex, h1 => exact h1
      | .folder nm pth ch, h1 =>
        unfold dotFree at h1 ⊢
        rw [Bool.and_eq_true] at h1 ⊢
        exact ⟨h1.1, h2⟩
    · rw [if_neg hx]
      unfold dotFreeF
      rw [Bool.and_eq_true]
      exact ⟨h.1, ih h.2⟩

theorem insertParts_dotFree (e : ZipEntry) :
    ∀ (parts acc : List Str) (m m' : List FTNode),
      insertParts e acc m parts = .ok m' →
      dotFreeF m = true →
      (∀ p ∈ parts, strStarts p (str ".") = false) →
      dotFreeF m' = true
  | [], acc, m, m' => by
    intro h hm _
    unfold insertParts at h
    cases h
    exact hm
  | [p], acc, m, m' => by
    intro h hm hp
    unfold insertParts at h
    cases hfind : m.find? (fun n => n.name == p) with
    | some n => rw [hfind] at h; cases h; exact hm
    | none =>
      rw [hfind] at h
      cases h
      rw [dotFreeF_append, Bool.and_eq_true]
      refine ⟨hm, ?_⟩
      have hpd := hp p (by simp)
      unfold mkLeaf
      by_cases hd : e.isDirectory
      · rw [if_pos hd]
        unfold dotFree dotFreeF
        simp [hpd]
      · rw [if_neg hd]
        unfold dotFree
        simp [hpd]
  | p :: q :: rs, acc, m, m' => by
    intro h hm hp
    unfold insertParts at h
    cases hfind : m.find? (fun n => n.name == p) with
    | some n =>
      rw [hfind] at h
      match n, h with
      | .file nm pth sz ex, h => cases h
      | .folder nm pth ch, h =>
        dsimp only at h
        cases hins : insertParts e (acc ++ [p]) ch (q :: rs) with
        | error msg => rw [hins] at h; cases h
        | ok ch2 =>
          rw [hins] at h
          cases h
          have hch : dotFreeF ch = true := by
            have := dotFreeF_mem hm (List.mem_of_find?_eq_some hfind)
            unfold dotFree at this
            rw [Bool.and_eq_true] at this
            exact this.2
          have hch2 := insertParts_dotFree e (q :: rs) (acc ++ [p]) ch ch2 hins hch
            (fun x hx => hp x (List.mem_cons_of_mem _ hx))
          exact dotFreeF_updateAt hm hch2
    | none =>
      rw [hfind] at h
      dsimp only at h
      cases hins : insertParts e (acc ++ [p]) [] (q :: rs) with
      | error msg => rw [hins] at h; cases h
      | ok ch2 =>
        rw [hins] at h
        cases h
        have hch2 := insertParts_dotFree e (q :: rs) (acc ++ [p]) [] ch2 hins rfl
          (fun x hx => hp x (List.mem_cons_of_mem _ hx))
        rw [dotFreeF_append, Bool.and_eq_true]
        refine ⟨hm, ?_⟩
        unfold dotFree
        rw [Bool.and_eq_true]
        exact ⟨by simpa using hp p (by simp), hch2⟩

theorem foldlM_insert_dotFree (pfx : Str)
    (hshape : pfx = [] ∨ ∃ b : Str, pfx = b ++ ['/'] ∧ '/' ∉ b) :
    ∀ (L : List ZipEntry) (m : List FTNode),
      (∀ e ∈ L, shouldIgnore e.entryName = false) →
      dotFreeF m = true →
      ∀ f, L.foldlM (insertEntry pfx) m = .ok f → dotFreeF f = true
  | [], m => by
    intro _ hm f h
    cases h
    exact hm
  | e :: es, m => by
    intro hL hm f h
    rw [List.foldlM_cons] at h
    cases hins : insertEntry pfx m e with
    | error msg => rw [hins] at h; cases h
    | ok m1 =>
      rw [hins] at h
      have hm1 : dotFreeF m1 = true := by
        unfold insertEntry at hins
        exact insertParts_dotFree e _ [] m m1 hins hm
          (entrySegs_dotFree pfx e (hL e (by simp)) hshape)
      exact foldlM_insert_dotFree pfx hshape es m1
        (fun x hx => hL x (List.mem_cons_of_mem _ hx)) hm1 f h

theorem convertNode_name : ∀ n : FTNode, (convertNode n).name = n.name
  | .file _ _ _ _ => rfl
  | .folder _ _ _ => rfl

theorem convertEach_map_name : ∀ m : List FTNode,
    (convertEach m).map FTNode.name = m.map FTNode.name
  | [] => rfl
  | n :: rest => by
    rw [show convertEach (n :: rest) = convertNode n :: convertEach rest from rfl]
    simp only [List.map_cons, convertNode_name n, convertEach_map_name rest]

theorem convertEach_length : ∀ m : List FTNode, (convertEach m).length = m.length
  | [] => rfl
  | n :: rest => by
    rw [show convertEach (n :: rest) = convertNode n :: convertEach rest from rfl]
    simp only [List.length_cons, convertEach_length rest]

theorem jsKeyOrder_perm (m : List FTNode) : (jsKeyOrder m).Perm m := by
  unfold jsKeyOrder
  exact (((List.perm_insertionSort numKeyLe _).append_right _).trans
    (List.filter_append_perm _ m))

theorem convertToArray_length (m : List FTNode) :
    (convertToArray m).length = m.length := by
  unfold convertToArray
  rw [(jsKeyOrder_perm (convertEach m)).length_eq, convertEach_length]

theorem convertEach_eq_map : ∀ m : List FTNode, convertEach m = m.map convertNode
  | [] => rfl
  | n :: rest => by
    rw [show convertEach (n :: rest) = convertNode n :: convertEach rest from rfl,
      List.map_cons, convertEach_eq_map rest]

theorem mem_convertEach {m : List FTNode} {x : FTNode} :
    x ∈ convertEach m ↔ ∃ y ∈ m, x = convertNode y := by
  rw [convertEach_eq_map, List.mem_map]
  constructor
  · rintro ⟨y, hy, rfl⟩
    exact ⟨y, hy, rfl⟩
  · rintro ⟨y, hy, rfl⟩
    exact ⟨y, hy, rfl⟩

theorem dotFreeF_all : ∀ m : List FTNode,
    dotFreeF m = true ↔ ∀ n ∈ m, dotFree n = true
  | [] => by simp [dotFreeF]
  | n :: rest => by
    unfold dotFreeF
    rw [Bool.and_eq_true, dotFreeF_all rest, List.forall_mem_cons]

theorem dotFreeF_of_perm {l l' : List FTNode} (hp : l.Perm l')
    (h : dotFreeF l = true) : dotFreeF l' = true := by
  rw [dotFreeF_all] at h ⊢
  exact fun n hn => h n (hp.symm.subset hn)

mutual
theorem convertNode_dotFree : ∀ n : FTNode,
    dotFree n = true → dotFree (convertNode n) = true
  | .file nm pth sz ex => fun h => h
  | .folder nm pth ch => by
    intro h
    rw [show convertNode (FTNode.folder nm pth ch) =
        .folder nm pth (jsKeyOrder (convertEach ch)) from rfl]
    unfold dotFree at h ⊢
    rw [Bool.and_eq_true] at h ⊢
    exact ⟨h.1, dotFreeF_of_perm (jsKeyOrder_perm (convertEach ch)).symm
      (convertEach_dotFree ch h.2)⟩

theorem convertEach_dotFree : ∀ m : List FTNode,
    dotFreeF m = true → dotFreeF (convertEach m) = true
  | [] => fun h => h
  | n :: rest => by
    intro h
    rw [show convertEach (n :: rest) = convertNode n :: convertEach rest from rfl]
    unfold dotFreeF at h ⊢
    rw [Bool.and_eq_true] at h ⊢
    exact ⟨convertNode_dotFree n h.1, convertEach_dotFree rest h.2⟩
end

theorem convertToArray_dotFree {m : List FTNode} (h : dotFreeF m = true) :
    dotFreeF (convertToArray m) = true :=
  dotFreeF_of_perm (jsKeyOrder_perm (convertEach m)).symm (convertEach_dotFree m h)

/-- C10 (amended): every node name anywhere in a returned tree avoids a
leading dot — paths with a dot-leading segment are removed by the
ignore filter before the tree is built, so no content block is ever
emitted for a file whose own name or any ancestor segment begins with
`'.'`.  The further conclusion of the claim — that therefore the
allow-list entries `.gitignore` and `.env` can never cause an
embedding — is refuted by `claim10_counterexample`: a file such as
`foo.env` has a dot-free name yet carries the extension `.env`. -/
theorem claim10_amended (entries : List ZipEntry) (f : List FTNode)
    (h : buildFileTree entries = .ok f) : dotFreeF f = true := by
  unfold buildFileTree at h
  cases hfold : (sortValidEntries entries).foldlM (insertEntry (buildPfx entries)) [] with
  | error msg => rw [hfold] at h; cases h
  | ok root =>
    rw [hfold] at h
    have h0 : (Except.ok (convertToArray root) : Except String (List FTNode)) = .ok f := h
    injection h0 with h0
    subst h0
    refine convertToArray_dotFree ?_
    have hshape : buildPfx entries = [] ∨
        ∃ b : Str, buildPfx entries = b ++ ['/'] ∧ '/' ∉ b := by
      by_cases hb : buildPfx entries = []
      · exact Or.inl hb
      · obtain ⟨b, _, hnb, heq, _⟩ := commonPfxOf_shape hb
        exact Or.inr ⟨b, heq, hnb⟩
    refine foldlM_insert_dotFree (buildPfx entries) hshape (sortValidEntries entries) []
      ?_ rfl root hfold
    intro e he
    unfold sortValidEntries at he
    rw [List.mem_insertionSort] at he
    have := List.of_mem_filter he
    simpa using this

/-- Witness for C10 (amended) at the `dotEnvArchive` run. -/
theorem claim10_amended_witness :
    dotFreeF [FTNode.file (str "foo.env") (str "foo.env") 1 (str ".env")] = true :=
  claim10_amended dotEnvArchive
    [FTNode.file (str "foo.env") (str "foo.env") 1 (str ".env")] rfl

theorem foldersNonEmptyF_append {m : List FTNode} {x : FTNode} :
    foldersNonEmptyF (m ++ [x]) = (foldersNonEmptyF m && foldersNonEmpty x) := by
  induction m with
  | nil => simp [foldersNonEmptyF]
  | cons n rest ih =>
    simp only [List.cons_append]
    unfold foldersNonEmptyF
    rw [ih, Bool.and_assoc]

theorem foldersNonEmptyF_mem {m : List FTNode} {n : FTNode}
    (h : foldersNonEmptyF m = true) (hn : n ∈ m) : foldersNonEmpty n = true := by
  induction m with
  | nil => cases hn
  | cons x rest ih =>
    unfold foldersNonEmptyF at h
    rw [Bool.and_eq_true] at h
    rcases List.mem_cons.mp hn with rfl | hmem
    · exact h.1
    · exact ih h.2 hmem

theorem foldersNonEmptyF_updateAt {m : List FTNode} {p : Str} {ch2 : List FTNode}
    (h : foldersNonEmptyF m = true) (h2 : foldersNonEmptyF ch2 = true)
    (hne : ch2 ≠ []) :
    foldersNonEmptyF (updateAt p ch2 m) = true := by
  induction m with
  | nil => simpa [updateAt] using h
  | cons x rest ih =>
    unfold foldersNonEmptyF at h
    rw [Bool.and_eq_true] at h
    unfold updateAt
    by_cases hx : (x.name == p : Bool)
    · rw [if_pos hx]
      unfold foldersNonEmptyF
      rw [Bool.and_eq_true]
      refine ⟨?_, h.2⟩
      match x, h.1 with
      | .file nm pth sz ex, h1 => exact h1
      | .folder nm pth ch, h1 =>
        unfold foldersNonEmpty
        rw [Bool.and_eq_true]
        exact ⟨by simpa [List.isEmpty_iff] using hne, h2⟩
    · rw [if_neg hx]
      unfold foldersNonEmptyF
      rw [Bool.and_eq_true]
      exact ⟨h.1, ih h.2⟩

theorem updateAt_ne_nil {m : List FTNode} {p : Str} {ch2 : List FTNode}
    (h : m ≠ []) : updateAt p ch2 m ≠ [] := by
  match m with
  | [] => exact absurd rfl h
  | x :: rest =>
    unfold updateAt
    by_cases hx : (x.name == p : Bool)
    · rw [if_pos hx]; exact List.cons_ne_nil _ _
    · rw [if_neg hx]; exact List.cons_ne_nil _ _

theorem insertParts_ne_nil (e : ZipEntry) :
    ∀ (r : Str) (rs acc : List Str) (m m' : List FTNode),
      insertParts e acc m (r :: rs) = .ok m' → m' ≠ [] := by
  intro r rs acc m m' h
  match rs, h with
  | [], h =>
    unfold insertParts at h
    cases hfind : m.find? (fun n => n.name == r) with
    | some n =>
      rw [hfind] at h
      cases h
      intro hnil
      rw [hnil] at hfind
      cases hfind
    | none =>
      rw [hfind] at h
      cases h
      simp
  | q :: rs', h =>
    unfold insertParts at h
    cases hfind : m.find? (fun n => n.name == r) with
    | some n =>
      rw [hfind] at h
      match n, h with
      | .file nm pth sz ex, h => cases h
      | .folder nm pth ch, h =>
        dsimp only at h
        cases hins : insertParts e (acc ++ [r]) ch (q :: rs') with
        | error msg => rw [hins] at h; cases h
        | ok ch2 =>
          rw [hins] at h
          cases h
          refine updateAt_ne_nil ?_
          intro hnil
          rw [hnil] at hfind
          cases hfind
    | none =>
      rw [hfind] at h
      dsimp only at h
      cases hins : insertParts e (acc ++ [r]) [] (q :: rs') with
      | error msg => rw [hins] at h; cases h
      | ok ch2 =>
        rw [hins] at h
        cases h
        simp

theorem insertParts_foldersNonEmpty (e : ZipEntry) (hdir : e.isDirectory = false) :
    ∀ (parts acc : List Str) (m m' : List FTNode),
      insertParts e acc m parts = .ok m' →
      foldersNonEmptyF m = true →
      foldersNonEmptyF m' = true
  | [], acc, m, m' => by
    intro h hm
    unfold insertParts at h
    cases h
    exact hm
  | [p], acc, m, m' => by
    intro h hm
    unfold insertParts at h
    cases hfind : m.find? (fun n => n.name == p) with
    | some n => rw [hfind] at h; cases h; exact hm
    | none =>
      rw [hfind] at h
      cases h
      rw [foldersNonEmptyF_append, Bool.and_eq_true]
      refine ⟨hm, ?_⟩
      unfold mkLeaf
      rw [if_neg (by simp [hdir])]
      unfold foldersNonEmpty
      rfl
  | p :: q :: rs, acc, m, m' => by
    intro h hm
    unfold insertParts at h
    cases hfind : m.find? (fun n => n.name == p) with
    | some n =>
      rw [hfind] at h
      match n, h with
      | .file nm pth sz ex, h => cases h
      | .folder nm pth ch, h =>
        dsimp only at h
        cases hins : insertParts e (acc ++ [p]) ch (q :: rs) with
        | error msg => rw [hins] at h; cases h
        | ok ch2 =>
          rw [hins] at h
          cases h
          have hch : foldersNonEmptyF ch = true := by
            have := foldersNonEmptyF_mem hm (List.mem_of_find?_eq_some hfind)
            unfold foldersNonEmpty at this
            rw [Bool.and_eq_true] at this
            exact this.2
          exact foldersNonEmptyF_updateAt hm
            (insertParts_foldersNonEmpty e hdir (q :: rs) (acc ++ [p]) ch ch2 hins hch)
            (insertParts_ne_nil e q rs (acc ++ [p]) ch ch2 hins)
    | none =>
      rw [hfind] at h
      dsimp only at h
      cases hins : insertParts e (acc ++ [p]) [] (q :: rs) with
      | error msg => rw [hins] at h; cases h
      | ok ch2 =>
        rw [hins] at h
        cases h
        rw [foldersNonEmptyF_append, Bool.and_eq_true]
        refine ⟨hm, ?_⟩
        unfold foldersNonEmpty
        rw [Bool.and_eq_true]
        have hne := insertParts_ne_nil e q rs (acc ++ [p]) [] ch2 hins
        exact ⟨by simpa [List.isEmpty_iff] using hne,
          insertParts_foldersNonEmpty e hdir (q :: rs) (acc ++ [p]) [] ch2 hins rfl⟩

theorem foldlM_insert_foldersNonEmpty (pfx : Str) :
    ∀ (L : List ZipEntry) (m : List FTNode),
      (∀ e ∈ L, e.isDirectory = false) →
      foldersNonEmptyF m = true →
      ∀ f, L.foldlM (insertEntry pfx) m = .ok f → foldersNonEmptyF f = true
  | [], m => by
    intro _ hm f h
    cases h
    exact hm
  | e :: es, m => by
    intro hL hm f h
    rw [List.foldlM_cons] at h
    cases hins : insertEntry pfx m e with
    | error msg => rw [hins] at h; cases h
    | ok m1 =>
      rw [hins] at h
      have hm1 : foldersNonEmptyF m1 = true :=
        insertParts_foldersNonEmpty e (hL e (by simp)) _ [] m m1 hins hm
      exact foldlM_insert_foldersNonEmpty pfx es m1
        (fun x hx => hL x (List.mem_cons_of_mem _ hx)) hm1 f h

theorem foldersNonEmptyF_all : ∀ m : List FTNode,
    foldersNonEmptyF m = true ↔ ∀ n ∈ m, foldersNonEmpty n = true
  | [] => by simp [foldersNonEmptyF]
  | n :: rest => by
    unfold foldersNonEmptyF
    rw [Bool.and_eq_true, foldersNonEmptyF_all rest, List.forall_mem_cons]

theorem foldersNonEmptyF_of_perm {l l' : List FTNode} (hp : l.Perm l')
    (h : foldersNonEmptyF l = true) : foldersNonEmptyF l' = true := by
  rw [foldersNonEmptyF_all] at h ⊢
  exact fun n hn => h n (hp.symm.subset hn)

mutual
theorem convertNode_foldersNonEmpty : ∀ n : FTNode,
    foldersNonEmpty n = true → foldersNonEmpty (convertNode n) = true
  | .file nm pth sz ex => fun h => h
  | .folder nm pth ch => by
    intro h
    rw [show convertNode (FTNode.folder nm pth ch) =
        .folder nm pth (jsKeyOrder (convertEach ch)) from rfl]
    unfold foldersNonEmpty at h ⊢
    rw [Bool.and_eq_true] at h ⊢
    refine ⟨?_, foldersNonEmptyF_of_perm (jsKeyOrder_perm (convertEach ch)).symm
      (convertEach_foldersNonEmpty ch h.2)⟩
    have hlen : (jsKeyOrder (convertEach ch)).length = ch.length := by
      rw [(jsKeyOrder_perm (convertEach ch)).length_eq, convertEach_length]
    have hch : ch ≠ [] := by
      intro hnil
      rw [hnil] at h
      exact Bool.false_ne_true h.1
    have hne : jsKeyOrder (convertEach ch) ≠ [] := by
      intro hnil
      apply hch
      apply List.length_eq_zero.mp
      rw [← hlen, hnil]
      rfl
    cases hj : jsKeyOrder (convertEach ch) with
    | nil => exact absurd hj hne
    | cons a as => rfl

theorem convertEach_foldersNonEmpty : ∀ m : List FTNode,
    foldersNonEmptyF m = true → foldersNonEmptyF (convertEach m) = true
  | [] => fun h => h
  | n :: rest => by
    intro h
    rw [show convertEach (n :: rest) = convertNode n :: convertEach rest from rfl]
    unfold foldersNonEmptyF at h ⊢
    rw [Bool.and_eq_true] at h ⊢
    exact ⟨convertNode_foldersNonEmpty n h.1, convertEach_foldersNonEmpty rest h.2⟩
end

theorem convertToArray_foldersNonEmpty {m : List FTNode}
    (h : foldersNonEmptyF m = true) : foldersNonEmptyF (convertToArray m) = true :=
  foldersNonEmptyF_of_perm (jsKeyOrder_perm (convertEach m)).symm
    (convertEach_foldersNonEmpty m h)

/-- C1 (amended): when the archive holds no directory entries, every
Folder node of the returned forest has a non-empty children list —
folders materialize lazily from the surviving file paths.  The
unrestricted claim is refuted by `claim1_counterexample`: a surviving
directory entry with no surviving descendants produces a Folder node
with a present-but-empty children list. -/
theorem claim1_amended (entries : List ZipEntry) (f : List FTNode)
    (hdir : ∀ e ∈ entries, e.isDirectory = false)
    (h : buildFileTree entries = .ok f) : foldersNonEmptyF f = true := by
  unfold buildFileTree at h
  cases hfold : (sortValidEntries entries).foldlM (insertEntry (buildPfx entries)) [] with
  | error msg => rw [hfold] at h; cases h
  | ok root =>
    rw [hfold] at h
    have h0 : (Except.ok (convertToArray root) : Except String (List FTNode)) = .ok f := h
    injection h0 with h0
    subst h0
    refine convertToArray_foldersNonEmpty ?_
    refine foldlM_insert_foldersNonEmpty (buildPfx entries) (sortValidEntries entries) []
      ?_ rfl root hfold
    intro e he
    unfold sortValidEntries at he
    rw [List.mem_insertionSort] at he
    exact hdir e (List.mem_of_mem_filter he)

/-- Witness for C1 (amended) at the §8 scenario archive, whose folder
`src` indeed has two children. -/
theorem claim1_amended_witness :
    foldersNonEmptyF
      [FTNode.folder (str "src") (str "src")
        [FTNode.file (str "a.py") (str "src/a.py") 9 (str ".py"),
         FTNode.file (str "b.txt") (str "src/b.txt") 0 (str ".txt")]] = true :=
  claim1_amended scnEntries
    [FTNode.folder (str "src") (str "src")
      [FTNode.file (str "a.py") (str "src/a.py") 9 (str ".py"),
       FTNode.file (str "b.txt") (str "src/b.txt") 0 (str ".txt")]]
    (by decide) rfl

/-! ## The collision behaviour of the tree builder -/

/-- C5 (amended): when the node at the next segment is a File and more
segments remain — the File was created first, the current entry needs
the same name as a Folder ancestor — the insertion does not resolve the
collision in favour of either side: it fails with the modelled
`TypeError`, so the whole `buildFileTree` run aborts instead of
returning a tree (see `claim5_counterexample` for an end-to-end run). -/
theorem claim5_amended (e : ZipEntry) (acc : List Str) (m : List FTNode)
    (p q : Str) (rs : List Str) (nm pth : Str) (sz : Nat) (ex : Str)
    (hfind : m.find? (fun n => n.name == p) = some (.file nm pth sz ex)) :
    insertParts e acc m (p :: q :: rs) =
      .error "TypeError: Cannot read properties of undefined" := by
  unfold insertParts
  rw [hfind]

/-- Witness for C5 (amended): inserting `a/b.txt` into a forest holding
the file `a` fails. -/
theorem claim5_amended_witness :
    insertParts ⟨str "a/b.txt", false, 1, none⟩ [] [.file (str "a") (str "a") 1 []]
      [str "a", str "b.txt"] =
      .error "TypeError: Cannot read properties of undefined" :=
  claim5_amended ⟨str "a/b.txt", false, 1, none⟩ [] [.file (str "a") (str "a") 1 []]
    (str "a") (str "b.txt") [] (str "a") (str "a") 1 [] rfl

/-! ## Infrastructure for the sibling-ordering theorem -/

theorem strLe_refl : ∀ s : Str, strLe s s = true
  | [] => rfl
  | c :: cs => by
    unfold strLe
    rw [if_neg (lt_irrefl c), if_neg (lt_irrefl c)]
    exact strLe_refl cs

theorem strLe_total : ∀ a b : Str, strLe a b = true ∨ strLe b a = true
  | [], b => Or.inl rfl
  | a :: as, [] => Or.inr rfl
  | a :: as, b :: bs => by
    unfold strLe
    rcases lt_trichotomy a b with h | h | h
    · left; rw [if_pos h]
    · subst h
      rcases strLe_total as bs with h | h
      · left
        rw [if_neg (lt_irrefl a), if_neg (lt_irrefl a)]
        exact h
      · right
        rw [if_neg (lt_irrefl a), if_neg (lt_irrefl a)]
        exact h
    · right; rw [if_pos h]

theorem strLe_trans : ∀ a b c : Str, strLe a b = true → strLe b c = true →
    strLe a c = true
  | [], b, c => by intro _ _; rfl
  | a :: as, [], c => by intro h; cases h
  | a :: as, b :: bs, [] => by intro _ h; cases h
  | a :: as, b :: bs, c :: cs => by
    unfold strLe
    intro h1 h2
    rcases lt_trichotomy a b with hab | hab | hab
    · rcases lt_trichotomy b c with hbc | hbc | hbc
      · rw [if_pos (hab.trans hbc)]
      · subst hbc; rw [if_pos hab]
      · rw [if_pos hbc, if_neg (asymm hbc)] at h2; cases h2
    · subst hab
      rcases lt_trichotomy a c with hac | hac | hac
      · rw [if_pos hac]
      · subst hac
        rw [if_neg (lt_irrefl a), if_neg (lt_irrefl a)] at h1 h2 ⊢
        exact strLe_trans as bs cs h1 h2
      · rw [if_pos hac, if_neg (asymm hac)] at h2; cases h2
    · rw [if_pos hab, if_neg (asymm hab)] at h1; cases h1

theorem isPfxOf_iff {α : Type} [BEq α] [LawfulBEq α] :
    ∀ (l₁ l₂ : List α), l₁.isPrefixOf l₂ = true ↔ l₁ <+: l₂
  | [], l₂ => by simp [List.isPrefixOf]
  | a :: l₁, [] => by simp [List.isPrefixOf]
  | a :: l₁, b :: l₂ => by
    simp [List.isPrefixOf, List.cons_prefix_cons, isPfxOf_iff l₁ l₂]

theorem segsReach_iff (pfx : Str) (e : ZipEntry) (segs : List Str) :
    segsReach pfx e segs = true ↔ segs <+: entrySegs pfx e :=
  isPfxOf_iff segs (entrySegs pfx e)

theorem segsReach_mono {pfx : Str} {e : ZipEntry} {s1 s2 : List Str}
    (h12 : s1 <+: s2) (h : segsReach pfx e s2 = true) : segsReach pfx e s1 = true :=
  (segsReach_iff pfx e s1).mpr (h12.trans ((segsReach_iff pfx e s2).mp h))

theorem mkLeaf_name (e : ZipEntry) (p pth : Str) : (mkLeaf e p pth).name = p := by
  unfold mkLeaf
  by_cases hd : e.isDirectory
  · rw [if_pos hd]; rfl
  · rw [if_neg hd]; rfl

theorem find?_name_eq {m : List FTNode} {p : Str} {n : FTNode}
    (h : m.find? (fun n => n.name == p) = some n) : n.name = p := by
  have := List.find?_some h
  simpa using this

theorem name_mem_of_find? {m : List FTNode} {p : Str} {n : FTNode}
    (h : m.find? (fun n => n.name == p) = some n) : p ∈ m.map FTNode.name := by
  rw [List.mem_map]
  exact ⟨n, List.mem_of_find?_eq_some h, find?_name_eq h⟩

theorem find?_name_cons (x : FTNode) (rest : List FTNode) (p : Str) :
    List.find? (fun n => n.name == p) (x :: rest) =
      if (x.name == p : Bool) then some x
      else List.find? (fun n => n.name == p) rest := by
  by_cases hx : (x.name == p : Bool)
  · rw [if_pos hx]
    unfold List.find?
    simp [hx]
  · rw [if_neg hx]
    have hfx : (x.name == p) = false := by simpa using hx
    unfold List.find?
    simp only [hfx]
    cases rest <;> rfl

theorem find?_of_name_mem : ∀ {m : List FTNode} {p : Str},
    p ∈ m.map FTNode.name → ∃ n, m.find? (fun n => n.name == p) = some n := by
  intro m p hp
  induction m with
  | nil => cases hp
  | cons x rest ih =>
    rw [find?_name_cons]
    by_cases hx : (x.name == p : Bool)
    · exact ⟨x, by rw [if_pos hx]⟩
    · rw [if_neg hx]
      rcases List.mem_map.mp hp with ⟨n, hn, hname⟩
      rcases List.mem_cons.mp hn with rfl | hmem
      · exact absurd (by simp [hname]) hx
      · exact ih (List.mem_map.mpr ⟨n, hmem, hname⟩)

theorem find?_append_some {m xs : List FTNode} {f : FTNode → Bool} {n : FTNode}
    (h : m.find? f = some n) : (m ++ xs).find? f = some n := by
  rw [List.find?_append, h]
  rfl

theorem find?_append_none {m xs : List FTNode} {f : FTNode → Bool}
    (h : m.find? f = none) : (m ++ xs).find? f = xs.find? f := by
  rw [List.find?_append, h]
  rfl

theorem childrenAt_cons (m : List FTNode) (s : Str) (Q : List Str) :
    childrenAt m (s :: Q) =
      match m.find? (fun n => n.name == s) with
      | some (.folder _ _ ch) => childrenAt ch Q
      | _ => none := rfl

theorem updateAt_map_name : ∀ (m : List FTNode) (p : Str) (ch2 : List FTNode),
    (updateAt p ch2 m).map FTNode.name = m.map FTNode.name
  | [], p, ch2 => rfl
  | x :: rest, p, ch2 => by
    unfold updateAt
    by_cases hx : (x.name == p : Bool)
    · rw [if_pos hx]
      match x with
      | .file nm pth sz ex => rfl
      | .folder nm pth ch => rfl
    · rw [if_neg hx]
      simp only [List.map_cons, updateAt_map_name rest p ch2]

theorem childrenAt_updateAt_ne : ∀ (m : List FTNode) (p s : Str) (ch2 : List FTNode)
    (Q : List Str), s ≠ p →
    childrenAt (updateAt p ch2 m) (s :: Q) = childrenAt m (s :: Q)
  | [], p, s, ch2, Q => by intro _; rfl
  | x :: rest, p, s, ch2, Q => by
    intro hsp
    unfold updateAt
    by_cases hx : (x.name == p : Bool)
    · rw [if_pos hx]
      have hxp : x.name = p := by simpa using hx
      have hxs : ¬(x.name == s : Bool) := by
        simp [hxp]
        exact fun h => hsp h.symm
      match x, hxp, hxs with
      | .file nm pth sz ex, hxp, hxs => rfl
      | .folder nm pth ch, hxp, hxs =>
        rw [childrenAt_cons, childrenAt_cons, find?_name_cons, find?_name_cons]
        have hns : ¬((FTNode.folder nm pth ch2).name == s : Bool) := hxs
        rw [if_neg hns, if_neg hxs]
    · rw [if_neg hx]
      rw [childrenAt_cons, childrenAt_cons, find?_name_cons, find?_name_cons]
      by_cases hxs : (x.name == s : Bool)
      · rw [if_pos hxs, if_pos hxs]
      · rw [if_neg hxs, if_neg hxs]
        rw [← childrenAt_cons, ← childrenAt_cons]
        exact childrenAt_updateAt_ne rest p s ch2 Q hsp

theorem childrenAt_updateAt_eq : ∀ (m : List FTNode) (p : Str) (ch2 : List FTNode)
    {nm pth : Str} {ch : List FTNode} (Q : List Str),
    m.find? (fun n => n.name == p) = some (.folder nm pth ch) →
    childrenAt (updateAt p ch2 m) (p :: Q) = childrenAt ch2 Q
  | [], p, ch2, nm, pth, ch, Q => by intro h; cases h
  | x :: rest, p, ch2, nm, pth, ch, Q => by
    intro h
    rw [find?_name_cons] at h
    unfold updateAt
    by_cases hx : (x.name == p : Bool)
    · rw [if_pos hx] at h ⊢
      cases h
      rw [childrenAt_cons, find?_name_cons]
      rw [if_pos (show ((FTNode.folder nm pth ch2).name == p : Bool) from hx)]
    · rw [if_neg hx] at h ⊢
      rw [childrenAt_cons, find?_name_cons, if_neg hx, ← childrenAt_cons]
      exact childrenAt_updateAt_eq rest p ch2 Q h

theorem creatorIn_cons (pfx : Str) (segs : List Str) (e : ZipEntry)
    (es : List ZipEntry) :
    creatorIn pfx segs (e :: es) =
      if segsReach pfx e segs then some e else creatorIn pfx segs es := rfl

theorem creatorIn_append (pfx : Str) (segs : List Str) :
    ∀ L1 L2 : List ZipEntry, creatorIn pfx segs (L1 ++ L2) =
      match creatorIn pfx segs L1 with
      | some e => some e
      | none => creatorIn pfx segs L2
  | [], L2 => rfl
  | e :: es, L2 => by
    rw [List.cons_append, creatorIn_cons, creatorIn_cons]
    by_cases he : segsReach pfx e segs
    · rw [if_pos he, if_pos he]
    · rw [if_neg he, if_neg he]
      exact creatorIn_append pfx segs es L2

theorem creatorIn_mem_reach {pfx : Str} {segs : List Str} :
    ∀ {L : List ZipEntry} {e : ZipEntry}, creatorIn pfx segs L = some e →
      e ∈ L ∧ segsReach pfx e segs = true := by
  intro L
  induction L with
  | nil => intro e h; cases h
  | cons x es ih =>
    intro e h
    rw [creatorIn_cons] at h
    by_cases hx : segsReach pfx x segs
    · rw [if_pos hx] at h
      cases h
      exact ⟨List.mem_cons_self _ _, hx⟩
    · rw [if_neg hx] at h
      rcases ih h with ⟨hmem, hr⟩
      exact ⟨List.mem_cons_of_mem _ hmem, hr⟩

theorem creatorIn_isSome {pfx : Str} {segs : List Str} :
    ∀ {L : List ZipEntry}, (∃ d ∈ L, segsReach pfx d segs = true) →
      ∃ e, creatorIn pfx segs L = some e ∧ e ∈ L := by
  intro L
  induction L with
  | nil => rintro ⟨d, hd, _⟩; cases hd
  | cons x es ih =>
    rintro ⟨d, hd, hr⟩
    rw [creatorIn_cons]
    by_cases hx : segsReach pfx x segs
    · exact ⟨x, by rw [if_pos hx], List.mem_cons_self _ _⟩
    · rcases List.mem_cons.mp hd with rfl | hmem
      · exact absurd hr hx
      · rcases ih ⟨d, hmem, hr⟩ with ⟨e, he, hmem'⟩
        exact ⟨e, by rw [if_neg hx]; exact he, List.mem_cons_of_mem _ hmem'⟩

theorem creatorIn_none {pfx : Str} {segs : List Str} :
    ∀ {L : List ZipEntry}, (∀ d ∈ L, segsReach pfx d segs = false) →
      creatorIn pfx segs L = none := by
  intro L
  induction L with
  | nil => intro _; rfl
  | cons x es ih =>
    intro h
    rw [creatorIn_cons]
    rw [if_neg (by rw [h x (List.mem_cons_self _ _)]; exact Bool.false_ne_true)]
    exact ih (fun d hd => h d (List.mem_cons_of_mem _ hd))

theorem creatorIn_split {pfx : Str} {segs : List Str}
    {done todo : List ZipEntry} {e : ZipEntry}
    (hdone : ∀ d ∈ done, segsReach pfx d segs = false)
    (he : segsReach pfx e segs = true) :
    creatorIn pfx segs (done ++ e :: todo) = some e := by
  rw [creatorIn_append, creatorIn_none hdone]
  rw [creatorIn_cons, if_pos he]

theorem creatorIn_of_done {pfx : Str} {segs : List Str}
    {done rest : List ZipEntry}
    (h : ∃ d ∈ done, segsReach pfx d segs = true) :
    ∃ eu, creatorIn pfx segs (done ++ rest) = some eu ∧ eu ∈ done := by
  rcases creatorIn_isSome h with ⟨eu, heu, hmem⟩
  refine ⟨eu, ?_, hmem⟩
  rw [creatorIn_append, heu]

theorem entryBefore_of_done {done todo : List ZipEntry} {eu e : ZipEntry}
    (hmem : eu ∈ done) : entryBefore (done ++ e :: todo) eu e := by
  left
  have h1 : [eu].Sublist done := List.singleton_sublist.mpr hmem
  have h2 : [e].Sublist (e :: todo) := (List.nil_sublist todo).cons₂ e
  exact List.Sublist.append h1 h2

theorem prefix_snoc_singleton {Q : List Str} {s p : Str}
    (h : Q ++ [s] <+: [p]) : Q = [] ∧ s = p := by
  match Q with
  | [] =>
    simp only [List.nil_append, List.cons_prefix_cons] at h
    exact ⟨rfl, h.1⟩
  | c :: Q' =>
    exfalso
    simp only [List.cons_append, List.cons_prefix_cons] at h
    have hl := h.2.length_le
    simp only [List.length_append, List.length_singleton, List.length_nil] at hl
    omega

theorem prefix_snoc_cons {Q : List Str} {s p : Str} {zs : List Str}
    (h : Q ++ [s] <+: p :: zs) :
    (Q = [] ∧ s = p) ∨ (∃ Q', Q = p :: Q' ∧ Q' ++ [s] <+: zs) := by
  match Q with
  | [] =>
    simp only [List.nil_append, List.cons_prefix_cons] at h
    exact Or.inl ⟨rfl, h.1⟩
  | c :: Q' =>
    simp only [List.cons_append, List.cons_prefix_cons] at h
    exact Or.inr ⟨Q', by rw [h.1], h.2⟩

theorem childrenAt_append_found {m xs : List FTNode} {s : Str} (Q : List Str)
    {n : FTNode} (hf : m.find? (fun n => n.name == s) = some n) :
    childrenAt (m ++ xs) (s :: Q) = childrenAt m (s :: Q) := by
  rw [childrenAt_cons, childrenAt_cons, find?_append_some hf, hf]

theorem childrenAt_append_notfound {m xs : List FTNode} {s : Str} (Q : List Str)
    (hf : m.find? (fun n => n.name == s) = none) :
    childrenAt (m ++ xs) (s :: Q) = childrenAt xs (s :: Q) := by
  rw [childrenAt_cons, childrenAt_cons, find?_append_none hf]

theorem childrenAt_cons_some {m : List FTNode} {s0 : Str} {Q' : List Str}
    {cs : List FTNode} (h : childrenAt m (s0 :: Q') = some cs) :
    ∃ nm pth ch, m.find? (fun n => n.name == s0) = some (.folder nm pth ch) ∧
      childrenAt ch Q' = some cs := by
  rw [childrenAt_cons] at h
  cases hf : m.find? (fun n => n.name == s0) with
  | none => rw [hf] at h; cases h
  | some n =>
    rw [hf] at h
    match n, h with
    | .file nm pth sz ex, h => cases h
    | .folder nm pth ch, h => exact ⟨nm, pth, ch, rfl, h⟩

theorem childrenAt_singleton_folder {p pth : Str} {ch2 : List FTNode}
    (s : Str) (Q : List Str) :
    childrenAt [FTNode.folder p pth ch2] (s :: Q) =
      if s = p then childrenAt ch2 Q else none := by
  rw [childrenAt_cons, find?_name_cons]
  by_cases hsp : s = p
  · rw [if_pos hsp]
    rw [if_pos (by simp [FTNode.name, hsp])]
  · rw [if_neg hsp]
    rw [if_neg (by simp [FTNode.name]; exact fun h => hsp h.symm)]
    rfl

theorem childrenAt_leaf {e : ZipEntry} {p pth : Str} {s : Str} {Q : List Str}
    {cs : List FTNode} (h : childrenAt [mkLeaf e p pth] (s :: Q) = some cs) :
    cs = [] := by
  unfold mkLeaf at h
  by_cases hd : e.isDirectory
  · rw [if_pos hd, childrenAt_singleton_folder] at h
    by_cases hsp : s = p
    · rw [if_pos hsp] at h
      match Q, h with
      | [], h => cases h; rfl
      | q :: Q', h => cases h
    · rw [if_neg hsp] at h; cases h
  · rw [if_neg hd, childrenAt_cons, find?_name_cons] at h
    by_cases hsp : ((FTNode.file p pth e.size (getFileExtension p)).name == s : Bool)
    · rw [if_pos hsp] at h; cases h
    · rw [if_neg hsp] at h; cases h

theorem SoundM_nil (done : List ZipEntry) (pfx : Str) (base : List Str) :
    SoundM done pfx base [] := by
  intro Q cs hQ s hs
  match Q, hQ with
  | [], hQ =>
    cases hQ
    cases hs
  | q :: Q', hQ => cases hQ

theorem OrdM_nil (L : List ZipEntry) (pfx : Str) (base : List Str) :
    OrdM L pfx base [] := by
  intro Q cs hQ
  match Q, hQ with
  | [], hQ =>
    cases hQ
    exact List.Pairwise.nil
  | q :: Q', hQ => cases hQ

theorem SoundM_mono {done : List ZipEntry} {e : ZipEntry} {pfx : Str}
    {base : List Str} {m : List FTNode} (h : SoundM done pfx base m) :
    SoundM (done ++ [e]) pfx base m := by
  intro Q cs hQ s hs
  rcases h Q cs hQ s hs with ⟨d, hd, hr⟩
  exact ⟨d, List.mem_append_left _ hd, hr⟩

theorem SoundM_sub {done : List ZipEntry} {pfx : Str} {base : List Str}
    {m : List FTNode} {p nm pth : Str} {ch : List FTNode}
    (hfind : m.find? (fun n => n.name == p) = some (.folder nm pth ch))
    (hS : SoundM done pfx base m) : SoundM done pfx (base ++ [p]) ch := by
  intro Q cs hQ s hs
  have hQ' : childrenAt m (p :: Q) = some cs := by
    rw [childrenAt_cons, hfind]
    exact hQ
  rcases hS (p :: Q) cs hQ' s hs with ⟨d, hd, hr⟩
  refine ⟨d, hd, ?_⟩
  have : base ++ (p :: Q) ++ [s] = base ++ [p] ++ Q ++ [s] := by simp
  rw [← this]
  exact hr

theorem CompM_sub {done : List ZipEntry} {pfx : Str} {base : List Str}
    {m : List FTNode} {p nm pth : Str} {ch : List FTNode}
    (hfind : m.find? (fun n => n.name == p) = some (.folder nm pth ch))
    (hC : CompM done pfx base m) : CompM done pfx (base ++ [p]) ch := by
  intro d hd Q s hr
  have hr' : segsReach pfx d (base ++ (p :: Q) ++ [s]) = true := by
    have : base ++ (p :: Q) ++ [s] = base ++ [p] ++ Q ++ [s] := by simp
    rw [this]
    exact hr
  rcases hC d hd (p :: Q) s hr' with ⟨cs, hcs, hsn⟩
  rw [childrenAt_cons, hfind] at hcs
  exact ⟨cs, hcs, hsn⟩

theorem OrdM_sub {L : List ZipEntry} {pfx : Str} {base : List Str}
    {m : List FTNode} {p nm pth : Str} {ch : List FTNode}
    (hfind : m.find? (fun n => n.name == p) = some (.folder nm pth ch))
    (hO : OrdM L pfx base m) : OrdM L pfx (base ++ [p]) ch := by
  intro Q cs hQ
  have hQ' : childrenAt m (p :: Q) = some cs := by
    rw [childrenAt_cons, hfind]
    exact hQ
  have := hO (p :: Q) cs hQ'
  have heq : ∀ s : Str, base ++ (p :: Q) ++ [s] = base ++ [p] ++ Q ++ [s] := by
    intro s; simp
  refine this.imp ?_
  intro s1 s2 ⟨eu, ev, h1, h2, hb⟩
  exact ⟨eu, ev, by rw [← heq s1]; exact h1, by rw [← heq s2]; exact h2, hb⟩

theorem done_not_reach {done : List ZipEntry} {pfx : Str} {base : List Str}
    {m : List FTNode} {p : Str}
    (hC : CompM done pfx base m)
    (hfind : m.find? (fun n => n.name == p) = none) :
    ∀ d ∈ done, segsReach pfx d (base ++ [p]) = false := by
  intro d hd
  by_cases hr : segsReach pfx d (base ++ [p]) = true
  · exfalso
    have hr' : segsReach pfx d (base ++ [] ++ [p]) = true := by simpa using hr
    rcases hC d hd [] p hr' with ⟨cs, hcs, hpn⟩
    have hcsm : cs = m := by
      have h0 : (some m : Option (List FTNode)) = some cs := hcs
      injection h0 with h0
      exact h0.symm
    rw [hcsm] at hpn
    rcases find?_of_name_mem hpn with ⟨n, hn⟩
    rw [hn] at hfind
    cases hfind
  · exact Bool.eq_false_iff.mpr hr

theorem not_reach_deep {pfx : Str} {d : ZipEntry} {base : List Str} {p : Str}
    (h : segsReach pfx d (base ++ [p]) = false) (Z : List Str) (s : Str) :
    segsReach pfx d (base ++ (p :: Z) ++ [s]) = false := by
  by_cases hr : segsReach pfx d (base ++ (p :: Z) ++ [s]) = true
  · exfalso
    have hpfx : (base ++ [p]) <+: (base ++ (p :: Z) ++ [s]) := by
      have : base ++ (p :: Z) ++ [s] = (base ++ [p]) ++ (Z ++ [s]) := by simp
      rw [this]
      exact List.prefix_append _ _
    have := segsReach_mono hpfx hr
    rw [h] at this
    cases this
  · exact Bool.eq_false_iff.mpr hr

theorem insertParts_inv (pfx : Str) (L done todo : List ZipEntry) (e : ZipEntry)
    (hL : L = done ++ e :: todo) :
    ∀ (rest base : List Str) (m m' : List FTNode),
      insertParts e base m rest = .ok m' →
      entrySegs pfx e = base ++ rest →
      SoundM done pfx base m → CompM done pfx base m → OrdM L pfx base m →
      SoundM (done ++ [e]) pfx base m' ∧ CompM (done ++ [e]) pfx base m' ∧
        OrdM L pfx base m'
  | [], base, m, m' => by
    intro hins hsegs hS hC hO
    unfold insertParts at hins
    cases hins
    refine ⟨SoundM_mono hS, ?_, hO⟩
    intro d hd Q s hr
    rcases List.mem_append.mp hd with hd | hd
    · exact hC d hd Q s hr
    · exfalso
      rcases List.mem_singleton.mp hd with rfl
      have hp := (segsReach_iff pfx d _).mp hr
      rw [hsegs, List.append_nil] at hp
      have h1 := hp.length_le
      simp only [List.append_assoc, List.length_append, List.length_singleton] at h1
      omega
  | [p], base, m, m' => by
    intro hins hsegs hS hC hO
    unfold insertParts at hins
    cases hfind : m.find? (fun n => n.name == p) with
    | some n =>
      rw [hfind] at hins
      cases hins
      refine ⟨SoundM_mono hS, ?_, hO⟩
      intro d hd Q s hr
      rcases List.mem_append.mp hd with hd | hd
      · exact hC d hd Q s hr
      · rcases List.mem_singleton.mp hd with rfl
        have hp := (segsReach_iff pfx d _).mp hr
        rw [hsegs] at hp
        have hp2 : Q ++ [s] <+: [p] := (List.prefix_append_right_inj base).mp (by
          simpa [List.append_assoc] using hp)
        rcases prefix_snoc_singleton hp2 with ⟨rfl, rfl⟩
        exact ⟨m, rfl, name_mem_of_find? hfind⟩
    | none =>
      rw [hfind] at hins
      cases hins
      have hxname : (mkLeaf e p (joinSlash (base ++ [p]))).name = p := mkLeaf_name e p _
      have hreach_p : segsReach pfx e (base ++ [p]) = true := by
        rw [segsReach_iff, hsegs]
      refine ⟨?_, ?_, ?_⟩
      · -- SoundM
        intro Q cs hQ s hs
        match Q, hQ with
        | [], hQ =>
          have h0 : (some (m ++ [mkLeaf e p (joinSlash (base ++ [p]))]) : Option (List FTNode)) = some cs := hQ
          injection h0 with h0
          rw [← h0, List.map_append, List.mem_append] at hs
          rcases hs with hs | hs
          · rcases hS [] m rfl s hs with ⟨d, hd, hr⟩
            exact ⟨d, List.mem_append_left _ hd, hr⟩
          · simp only [List.map_cons, List.map_nil, List.mem_singleton, hxname] at hs
            subst hs
            exact ⟨e, List.mem_append_right _ (List.mem_singleton.mpr rfl), by
              simpa using hreach_p⟩
        | s0 :: Q', hQ =>
          cases hf0 : m.find? (fun n => n.name == s0) with
          | some n0 =>
            rw [childrenAt_append_found Q' hf0] at hQ
            rcases hS (s0 :: Q') cs hQ s hs with ⟨d, hd, hr⟩
            exact ⟨d, List.mem_append_left _ hd, hr⟩
          | none =>
            rw [childrenAt_append_notfound Q' hf0] at hQ
            rw [childrenAt_leaf hQ] at hs
            cases hs
      · -- CompM
        intro d hd Q s hr
        rcases List.mem_append.mp hd with hd | hd
        · rcases hC d hd Q s hr with ⟨cs, hcs, hsn⟩
          match Q, hcs with
          | [], hcs =>
            have h0 : (some m : Option (List FTNode)) = some cs := hcs
            injection h0 with h0
            refine ⟨m ++ [mkLeaf e p (joinSlash (base ++ [p]))], rfl, ?_⟩
            rw [List.map_append, List.mem_append]
            left
            rw [h0]
            exact hsn
          | s0 :: Q', hcs =>
            rcases childrenAt_cons_some hcs with ⟨nm, pth, ch, hf0, _⟩
            refine ⟨cs, ?_, hsn⟩
            rw [childrenAt_append_found Q' hf0]
            exact hcs
        · rcases List.mem_singleton.mp hd with rfl
          have hp := (segsReach_iff pfx d _).mp hr
          rw [hsegs] at hp
          have hp2 : Q ++ [s] <+: [p] := (List.prefix_append_right_inj base).mp (by
            simpa [List.append_assoc] using hp)
          rcases prefix_snoc_singleton hp2 with ⟨rfl, rfl⟩
          refine ⟨m ++ [mkLeaf d s (joinSlash (base ++ [s]))], rfl, ?_⟩
          rw [List.map_append, List.mem_append]
          right
          simp [hxname]
      · -- OrdM
        intro Q cs hQ
        match Q, hQ with
        | [], hQ =>
          have h0 : (some (m ++ [mkLeaf e p (joinSlash (base ++ [p]))]) : Option (List FTNode)) = some cs := hQ
          injection h0 with h0
          rw [← h0, List.map_append]
          rw [List.pairwise_append]
          refine ⟨hO [] m rfl, by simp, ?_⟩
          intro s1 hs1 s2 hs2
          simp only [List.map_cons, List.map_nil, List.mem_singleton, hxname] at hs2
          subst hs2
          rcases hS [] m rfl s1 hs1 with ⟨d, hd, hr1⟩
          have hcre1 : ∃ eu, creatorIn pfx (base ++ [] ++ [s1]) L = some eu ∧ eu ∈ done := by
            rw [hL]
            exact creatorIn_of_done ⟨d, hd, hr1⟩
          rcases hcre1 with ⟨eu, heu, hmem⟩
          have hnd := done_not_reach hC hfind
          have hcre2 : creatorIn pfx (base ++ [] ++ [s2]) L = some e := by
            rw [hL]
            exact creatorIn_split (by simpa using hnd) (by simpa using hreach_p)
          exact ⟨eu, e, heu, hcre2, hL ▸ entryBefore_of_done hmem⟩
        | s0 :: Q', hQ =>
          cases hf0 : m.find? (fun n => n.name == s0) with
          | some n0 =>
            rw [childrenAt_append_found Q' hf0] at hQ
            exact hO (s0 :: Q') cs hQ
          | none =>
            rw [childrenAt_append_notfound Q' hf0] at hQ
            rw [childrenAt_leaf hQ]
            exact List.Pairwise.nil
  | p :: q :: rs, base, m, m' => by
    intro hins hsegs hS hC hO
    unfold insertParts at hins
    have hsegs' : entrySegs pfx e = (base ++ [p]) ++ (q :: rs) := by
      rw [hsegs]; simp
    have hreach_p : segsReach pfx e (base ++ [p]) = true := by
      rw [segsReach_iff, hsegs']
      exact List.prefix_append _ _
    cases hfind : m.find? (fun n => n.name == p) with
    | some n =>
      rw [hfind] at hins
      match n, hfind, hins with
      | .file nm pth sz ex, hfind, hins => cases hins
      | .folder nm pth ch, hfind, hins =>
        dsimp only at hins
        cases hrec : insertParts e (base ++ [p]) ch (q :: rs) with
        | error msg => rw [hrec] at hins; cases hins
        | ok ch2 =>
          rw [hrec] at hins
          cases hins
          rcases insertParts_inv pfx L done todo e hL (q :: rs) (base ++ [p]) ch ch2
              hrec hsegs' (SoundM_sub hfind hS) (CompM_sub hfind hC) (OrdM_sub hfind hO)
            with ⟨hS', hC', hO'⟩
          refine ⟨?_, ?_, ?_⟩
          · -- SoundM for updateAt
            intro Q cs hQ s hs
            match Q, hQ with
            | [], hQ =>
              have h0 : (some (updateAt p ch2 m) : Option (List FTNode)) = some cs := hQ
              injection h0 with h0
              rw [← h0, updateAt_map_name] at hs
              rcases hS [] m rfl s hs with ⟨d, hd, hr⟩
              exact ⟨d, List.mem_append_left _ hd, hr⟩
            | s0 :: Q', hQ =>
              by_cases hs0 : s0 = p
              · subst hs0
                rw [childrenAt_updateAt_eq m s0 ch2 Q' hfind] at hQ
                rcases hS' Q' cs hQ s hs with ⟨d, hd, hr⟩
                refine ⟨d, hd, ?_⟩
                have : base ++ (s0 :: Q') ++ [s] = base ++ [s0] ++ Q' ++ [s] := by simp
                rw [this]
                exact hr
              · rw [childrenAt_updateAt_ne m p s0 ch2 Q' hs0] at hQ
                rcases hS (s0 :: Q') cs hQ s hs with ⟨d, hd, hr⟩
                exact ⟨d, List.mem_append_left _ hd, hr⟩
          · -- CompM for updateAt
            intro d hd Q s hr
            match Q, hr with
            | [], hr =>
              refine ⟨updateAt p ch2 m, rfl, ?_⟩
              rw [updateAt_map_name]
              rcases List.mem_append.mp hd with hd | hd
              · rcases hC d hd [] s hr with ⟨cs, hcs, hsn⟩
                have h0 : (some m : Option (List FTNode)) = some cs := hcs
                injection h0 with h0
                rw [h0]
                exact hsn
              · rcases List.mem_singleton.mp hd with rfl
                have hp := (segsReach_iff pfx d _).mp hr
                rw [hsegs] at hp
                have hp2 : [] ++ [s] <+: p :: q :: rs := (List.prefix_append_right_inj base).mp (by
                  simpa [List.append_assoc] using hp)
                simp only [List.nil_append, List.cons_prefix_cons] at hp2
                rw [hp2.1]
                exact name_mem_of_find? hfind
            | s0 :: Q', hr =>
              by_cases hs0 : s0 = p
              · subst hs0
                have hr' : segsReach pfx d (base ++ [s0] ++ Q' ++ [s]) = true := by
                  have : base ++ (s0 :: Q') ++ [s] = base ++ [s0] ++ Q' ++ [s] := by simp
                  rw [← this]
                  exact hr
                rcases hC' d hd Q' s hr' with ⟨cs, hcs, hsn⟩
                refine ⟨cs, ?_, hsn⟩
                rw [childrenAt_updateAt_eq m s0 ch2 Q' hfind]
                exact hcs
              · rcases List.mem_append.mp hd with hd | hd
                · rcases hC d hd (s0 :: Q') s hr with ⟨cs, hcs, hsn⟩
                  refine ⟨cs, ?_, hsn⟩
                  rw [childrenAt_updateAt_ne m p s0 ch2 Q' hs0]
                  exact hcs
                · exfalso
                  rcases List.mem_singleton.mp hd with rfl
                  have hp := (segsReach_iff pfx d _).mp hr
                  rw [hsegs] at hp
                  have hp2 : (s0 :: Q') ++ [s] <+: p :: q :: rs :=
                    (List.prefix_append_right_inj base).mp (by
                      simpa [List.append_assoc] using hp)
                  simp only [List.cons_append, List.cons_prefix_cons] at hp2
                  exact hs0 hp2.1
          · -- OrdM for updateAt
            intro Q cs hQ
            match Q, hQ with
            | [], hQ =>
              have h0 : (some (updateAt p ch2 m) : Option (List FTNode)) = some cs := hQ
              injection h0 with h0
              rw [← h0, updateAt_map_name]
              exact hO [] m rfl
            | s0 :: Q', hQ =>
              by_cases hs0 : s0 = p
              · subst hs0
                rw [childrenAt_updateAt_eq m s0 ch2 Q' hfind] at hQ
                have := hO' Q' cs hQ
                refine this.imp ?_
                intro s1 s2 ⟨eu, ev, h1, h2, hb⟩
                have heq : ∀ sx : Str, base ++ (s0 :: Q') ++ [sx] = base ++ [s0] ++ Q' ++ [sx] := by
                  intro sx; simp
                exact ⟨eu, ev, by rw [heq s1]; exact h1, by rw [heq s2]; exact h2, hb⟩
              · rw [childrenAt_updateAt_ne m p s0 ch2 Q' hs0] at hQ
                exact hO (s0 :: Q') cs hQ
    | none =>
      rw [hfind] at hins
      dsimp only at hins
      cases hrec : insertParts e (base ++ [p]) [] (q :: rs) with
      | error msg => rw [hrec] at hins; cases hins
      | ok ch2 =>
        rw [hrec] at hins
        cases hins
        have hnd := done_not_reach hC hfind
        have hCnil : CompM done pfx (base ++ [p]) [] := by
          intro d hd Q s hr
          exfalso
          have := not_reach_deep (hnd d hd) Q s
          have hr' : segsReach pfx d (base ++ (p :: Q) ++ [s]) = true := by
            have : base ++ (p :: Q) ++ [s] = base ++ [p] ++ Q ++ [s] := by simp
            rw [this]
            exact hr
          rw [this] at hr'
          cases hr'
        rcases insertParts_inv pfx L done todo e hL (q :: rs) (base ++ [p]) [] ch2
            hrec hsegs' (SoundM_nil done pfx _) hCnil (OrdM_nil L pfx _)
          with ⟨hS', hC', hO'⟩
        have hxname : (FTNode.folder p (joinSlash (base ++ [p])) ch2).name = p := rfl
        refine ⟨?_, ?_, ?_⟩
        · -- SoundM for append-folder
          intro Q cs hQ s hs
          match Q, hQ with
          | [], hQ =>
            have h0 : (some (m ++ [FTNode.folder p (joinSlash (base ++ [p])) ch2]) :
                Option (List FTNode)) = some cs := hQ
            injection h0 with h0
            rw [← h0, List.map_append, List.mem_append] at hs
            rcases hs with hs | hs
            · rcases hS [] m rfl s hs with ⟨d, hd, hr⟩
              exact ⟨d, List.mem_append_left _ hd, hr⟩
            · simp only [List.map_cons, List.map_nil, List.mem_singleton, hxname] at hs
              subst hs
              exact ⟨e, List.mem_append_right _ (List.mem_singleton.mpr rfl), by
                simpa using hreach_p⟩
          | s0 :: Q', hQ =>
            cases hf0 : m.find? (fun n => n.name == s0) with
            | some n0 =>
              rw [childrenAt_append_found Q' hf0] at hQ
              rcases hS (s0 :: Q') cs hQ s hs with ⟨d, hd, hr⟩
              exact ⟨d, List.mem_append_left _ hd, hr⟩
            | none =>
              rw [childrenAt_append_notfound Q' hf0] at hQ
              rw [childrenAt_singleton_folder] at hQ
              by_cases hs0 : s0 = p
              · subst hs0
                rw [if_pos rfl] at hQ
                rcases hS' Q' cs hQ s hs with ⟨d, hd, hr⟩
                refine ⟨d, hd, ?_⟩
                have heq : base ++ (s0 :: Q') ++ [s] = base ++ [s0] ++ Q' ++ [s] := by simp
                rw [heq]
                exact hr
              · rw [if_neg hs0] at hQ
                cases hQ
        · -- CompM for append-folder
          intro d hd Q s hr
          rcases List.mem_append.mp hd with hd | hd
          · match Q, hr with
            | [], hr =>
              rcases hC d hd [] s hr with ⟨cs, hcs, hsn⟩
              have h0 : (some m : Option (List FTNode)) = some cs := hcs
              injection h0 with h0
              refine ⟨m ++ [FTNode.folder p (joinSlash (base ++ [p])) ch2], rfl, ?_⟩
              rw [List.map_append, List.mem_append]
              left
              rw [h0]
              exact hsn
            | s0 :: Q', hr =>
              by_cases hs0 : s0 = p
              · exfalso
                subst hs0
                have := not_reach_deep (hnd d hd) Q' s
                have hr' : segsReach pfx d (base ++ (s0 :: Q') ++ [s]) = true := hr
                rw [this] at hr'
                cases hr'
              · rcases hC d hd (s0 :: Q') s hr with ⟨cs, hcs, hsn⟩
                rcases childrenAt_cons_some hcs with ⟨nm, pth, ch, hf0, _⟩
                refine ⟨cs, ?_, hsn⟩
                rw [childrenAt_append_found Q' hf0]
                exact hcs
          · rcases List.mem_singleton.mp hd with rfl
            have hp := (segsReach_iff pfx d _).mp hr
            rw [hsegs] at hp
            have hp2 : Q ++ [s] <+: p :: q :: rs := (List.prefix_append_right_inj base).mp (by
              simpa [List.append_assoc] using hp)
            rcases prefix_snoc_cons hp2 with ⟨rfl, rfl⟩ | ⟨Q', rfl, hp3⟩
            · refine ⟨m ++ [FTNode.folder s (joinSlash (base ++ [s])) ch2], rfl, ?_⟩
              rw [List.map_append, List.mem_append]
              right
              simp [hxname]
            · have hr' : segsReach pfx d (base ++ [p] ++ Q' ++ [s]) = true := by
                rw [segsReach_iff, hsegs']
                rw [List.append_assoc (base ++ [p]) Q' [s]]
                exact (List.prefix_append_right_inj (base ++ [p])).mpr hp3
              rcases hC' d (List.mem_append_right _ (List.mem_singleton.mpr rfl)) Q' s hr'
                with ⟨cs, hcs, hsn⟩
              refine ⟨cs, ?_, hsn⟩
              rw [childrenAt_append_notfound Q' hfind, childrenAt_singleton_folder,
                if_pos rfl]
              exact hcs
        · -- OrdM for append-folder
          intro Q cs hQ
          match Q, hQ with
          | [], hQ =>
            have h0 : (some (m ++ [FTNode.folder p (joinSlash (base ++ [p])) ch2]) :
                Option (List FTNode)) = some cs := hQ
            injection h0 with h0
            rw [← h0, List.map_append]
            rw [List.pairwise_append]
            refine ⟨hO [] m rfl, by simp, ?_⟩
            intro s1 hs1 s2 hs2
            simp only [List.map_cons, List.map_nil, List.mem_singleton, hxname] at hs2
            subst hs2
            rcases hS [] m rfl s1 hs1 with ⟨d, hd, hr1⟩
            have hcre1 : ∃ eu, creatorIn pfx (base ++ [] ++ [s1]) L = some eu ∧ eu ∈ done := by
              rw [hL]
              exact creatorIn_of_done ⟨d, hd, hr1⟩
            rcases hcre1 with ⟨eu, heu, hmem⟩
            have hcre2 : creatorIn pfx (base ++ [] ++ [s2]) L = some e := by
              rw [hL]
              exact creatorIn_split (by simpa using hnd) (by simpa using hreach_p)
            exact ⟨eu, e, heu, hcre2, hL ▸ entryBefore_of_done hmem⟩
          | s0 :: Q', hQ =>
            cases hf0 : m.find? (fun n => n.name == s0) with
            | some n0 =>
              rw [childrenAt_append_found Q' hf0] at hQ
              exact hO (s0 :: Q') cs hQ
            | none =>
              rw [childrenAt_append_notfound Q' hf0] at hQ
              rw [childrenAt_singleton_folder] at hQ
              by_cases hs0 : s0 = p
              · subst hs0
                rw [if_pos rfl] at hQ
                have := hO' Q' cs hQ
                refine this.imp ?_
                intro s1 s2 ⟨eu, ev, h1, h2, hb⟩
                have heq : ∀ sx : Str, base ++ (s0 :: Q') ++ [sx] = base ++ [s0] ++ Q' ++ [sx] := by
                  intro sx; simp
                exact ⟨eu, ev, by rw [heq s1]; exact h1, by rw [heq s2]; exact h2, hb⟩
              · rw [if_neg hs0] at hQ
                cases hQ

theorem foldlM_insert_ord (pfx : Str) (L : List ZipEntry) :
    ∀ (todo done : List ZipEntry) (m : List FTNode),
      L = done ++ todo →
      SoundM done pfx [] m → CompM done pfx [] m → OrdM L pfx [] m →
      ∀ f, todo.foldlM (insertEntry pfx) m = .ok f →
        SoundM L pfx [] f ∧ CompM L pfx [] f ∧ OrdM L pfx [] f
  | [], done, m => by
    intro hL hS hC hO f h
    rw [List.foldlM_nil] at h
    have h0 : (Except.ok m : Except String (List FTNode)) = .ok f := h
    injection h0 with h0
    subst h0
    have hd : L = done := by rw [hL, List.append_nil]
    subst hd
    exact ⟨hS, hC, hO⟩
  | e :: todo', done, m => by
    intro hL hS hC hO f h
    rw [List.foldlM_cons] at h
    cases hins : insertEntry pfx m e with
    | error msg =>
      rw [hins] at h
      cases h
    | ok m1 =>
      rw [hins] at h
      rcases insertParts_inv pfx L done todo' e hL (entrySegs pfx e) [] m m1 hins
          (by simp [])
          hS hC hO with ⟨hS1, hC1, hO1⟩
      have hL' : L = (done ++ [e]) ++ todo' := by rw [hL]; simp
      exact foldlM_insert_ord pfx L todo' (done ++ [e]) m1 hL' hS1 hC1 hO1 f h

theorem SoundM_start (pfx : Str) : SoundM [] pfx [] [] := SoundM_nil [] pfx []

theorem CompM_start (pfx : Str) : CompM [] pfx [] [] := by
  intro d hd
  cases hd

theorem name_not_mem_of_find?_none {m : List FTNode} {p : Str}
    (h : m.find? (fun n => n.name == p) = none) : p ∉ m.map FTNode.name := by
  intro hp
  rcases find?_of_name_mem hp with ⟨n, hn⟩
  rw [hn] at h
  cases h

theorem UniqM_nil : UniqM [] := by
  intro Q cs hQ
  match Q, hQ with
  | [], hQ =>
    cases hQ
    exact List.nodup_nil
  | q :: Q', hQ => cases hQ

theorem UniqM_sub {m : List FTNode} {p nm pth : Str} {ch : List FTNode}
    (hfind : m.find? (fun n => n.name == p) = some (.folder nm pth ch))
    (hU : UniqM m) : UniqM ch := by
  intro Q cs hQ
  refine hU (p :: Q) cs ?_
  rw [childrenAt_cons, hfind]
  exact hQ

theorem insertParts_uniq (e : ZipEntry) :
    ∀ (parts acc : List Str) (m m' : List FTNode),
      insertParts e acc m parts = .ok m' → UniqM m → UniqM m'
  | [], acc, m, m' => by
    intro h hU
    unfold insertParts at h
    cases h
    exact hU
  | [p], acc, m, m' => by
    intro h hU
    unfold insertParts at h
    cases hfind : m.find? (fun n => n.name == p) with
    | some n => rw [hfind] at h; cases h; exact hU
    | none =>
      rw [hfind] at h
      cases h
      intro Q cs hQ
      match Q, hQ with
      | [], hQ =>
        have h0 : (some (m ++ [mkLeaf e p (joinSlash (acc ++ [p]))]) :
            Option (List FTNode)) = some cs := hQ
        injection h0 with h0
        rw [← h0, List.map_append]
        rw [List.nodup_append]
        refine ⟨hU [] m rfl, by simp, ?_⟩
        intro a ha hb
        simp only [List.map_cons, List.map_nil, List.mem_singleton, mkLeaf_name] at hb
        subst hb
        exact name_not_mem_of_find?_none hfind ha
      | s0 :: Q', hQ =>
        cases hf0 : m.find? (fun n => n.name == s0) with
        | some n0 =>
          rw [childrenAt_append_found Q' hf0] at hQ
          exact hU (s0 :: Q') cs hQ
        | none =>
          rw [childrenAt_append_notfound Q' hf0] at hQ
          rw [childrenAt_leaf hQ]
          exact List.nodup_nil
  | p :: q :: rs, acc, m, m' => by
    intro h hU
    unfold insertParts at h
    cases hfind : m.find? (fun n => n.name == p) with
    | some n =>
      rw [hfind] at h
      match n, hfind, h with
      | .file nm pth sz ex, hfind, h => cases h
      | .folder nm pth ch, hfind, h =>
        dsimp only at h
        cases hrec : insertParts e (acc ++ [p]) ch (q :: rs) with
        | error msg => rw [hrec] at h; cases h
        | ok ch2 =>
          rw [hrec] at h
          cases h
          have hU2 : UniqM ch2 :=
            insertParts_uniq e (q :: rs) (acc ++ [p]) ch ch2 hrec (UniqM_sub hfind hU)
          intro Q cs hQ
          match Q, hQ with
          | [], hQ =>
            have h0 : (some (updateAt p ch2 m) : Option (List FTNode)) = some cs := hQ
            injection h0 with h0
            rw [← h0, updateAt_map_name]
            exact hU [] m rfl
          | s0 :: Q', hQ =>
            by_cases hs0 : s0 = p
            · subst hs0
              rw [childrenAt_updateAt_eq m s0 ch2 Q' hfind] at hQ
              exact hU2 Q' cs hQ
            · rw [childrenAt_updateAt_ne m p s0 ch2 Q' hs0] at hQ
              exact hU (s0 :: Q') cs hQ
    | none =>
      rw [hfind] at h
      dsimp only at h
      cases hrec : insertParts e (acc ++ [p]) [] (q :: rs) with
      | error msg => rw [hrec] at h; cases h
      | ok ch2 =>
        rw [hrec] at h
        cases h
        have hU2 : UniqM ch2 :=
          insertParts_uniq e (q :: rs) (acc ++ [p]) [] ch2 hrec UniqM_nil
        intro Q cs hQ
        match Q, hQ with
        | [], hQ =>
          have h0 : (some (m ++ [FTNode.folder p (joinSlash (acc ++ [p])) ch2]) :
              Option (List FTNode)) = some cs := hQ
          injection h0 with h0
          rw [← h0, List.map_append]
          rw [List.nodup_append]
          refine ⟨hU [] m rfl, by simp, ?_⟩
          intro a ha hb
          simp only [List.map_cons, List.map_nil, List.mem_singleton] at hb
          subst hb
          exact name_not_mem_of_find?_none hfind ha
        | s0 :: Q', hQ =>
          cases hf0 : m.find? (fun n => n.name == s0) with
          | some n0 =>
            rw [childrenAt_append_found Q' hf0] at hQ
            exact hU (s0 :: Q') cs hQ
          | none =>
            rw [childrenAt_append_notfound Q' hf0] at hQ
            rw [childrenAt_singleton_folder] at hQ
            by_cases hs0 : s0 = p
            · subst hs0
              rw [if_pos rfl] at hQ
              exact hU2 Q' cs hQ
            · rw [if_neg hs0] at hQ
              cases hQ

theorem foldlM_insert_uniq (pfx : Str) :
    ∀ (L : List ZipEntry) (m : List FTNode), UniqM m →
      ∀ f, L.foldlM (insertEntry pfx) m = .ok f → UniqM f
  | [], m => by
    intro hU f h
    cases h
    exact hU
  | e :: es, m => by
    intro hU f h
    rw [List.foldlM_cons] at h
    cases hins : insertEntry pfx m e with
    | error msg => rw [hins] at h; cases h
    | ok m1 =>
      rw [hins] at h
      exact foldlM_insert_uniq pfx es m1
        (insertParts_uniq e _ [] m m1 hins hU) f h

theorem find?_name_of_not_mem {m : List FTNode} {p : Str}
    (h : p ∉ m.map FTNode.name) : m.find? (fun n => n.name == p) = none := by
  rw [List.find?_eq_none]
  intro x hx
  simp only [beq_iff_eq]
  intro hxp
  exact h (hxp ▸ List.mem_map_of_mem FTNode.name hx)

theorem find?_name_of_nodup : ∀ {m : List FTNode} {p : Str} {n : FTNode},
    (m.map FTNode.name).Nodup → n ∈ m → n.name = p →
    m.find? (fun x => x.name == p) = some n
  | [], p, n => by
    intro _ hn _
    cases hn
  | x :: rest, p, n => by
    intro hnd hn hp
    rw [find?_name_cons]
    by_cases hx : x.name = p
    · rw [if_pos (by rw [hx]; exact beq_self_eq_true p)]
      cases List.mem_cons.mp hn with
      | inl h => rw [h]
      | inr h =>
        exfalso
        rw [List.map_cons, List.nodup_cons] at hnd
        exact hnd.1 (hx.trans hp.symm ▸ List.mem_map_of_mem FTNode.name h)
    · rw [if_neg (by simp only [beq_iff_eq]; exact hx)]
      cases List.mem_cons.mp hn with
      | inl h => exact absurd (h ▸ hp) hx
      | inr h =>
        rw [List.map_cons, List.nodup_cons] at hnd
        exact find?_name_of_nodup hnd.2 h hp

theorem convertToArray_names_perm (m : List FTNode) :
    ((convertToArray m).map FTNode.name).Perm (m.map FTNode.name) := by
  unfold convertToArray
  exact ((jsKeyOrder_perm (convertEach m)).map FTNode.name).trans
    (by rw [convertEach_map_name])

theorem find?_convert {m : List FTNode} (p : Str)
    (hnd : (m.map FTNode.name).Nodup) :
    (convertToArray m).find? (fun n => n.name == p) =
      (m.find? (fun n => n.name == p)).map convertNode := by
  cases hfind : m.find? (fun n => n.name == p) with
  | none =>
    have hnp : p ∉ m.map FTNode.name := by
      intro hp
      rcases find?_of_name_mem hp with ⟨n, hn⟩
      rw [hn] at hfind
      cases hfind
    exact find?_name_of_not_mem
      (fun hp => hnp ((convertToArray_names_perm m).subset hp))
  | some n =>
    have hmem : n ∈ m := List.mem_of_find?_eq_some hfind
    have hname : n.name = p := by
      have := List.find?_some hfind
      simpa using this
    have hmem' : convertNode n ∈ convertToArray m := by
      refine (jsKeyOrder_perm (convertEach m)).symm.subset ?_
      exact mem_convertEach.mpr ⟨n, hmem, rfl⟩
    exact find?_name_of_nodup
      (((convertToArray_names_perm m).nodup_iff).mpr hnd) hmem'
      (by rw [convertNode_name, hname])

theorem childrenAt_convert : ∀ (P : List Str) (m : List FTNode),
    UniqM m → ∀ cs', childrenAt (convertToArray m) P = some cs' →
      ∃ cs, childrenAt m P = some cs ∧ cs' = convertToArray cs
  | [], m => by
    intro hU cs' h
    have h0 : (some (convertToArray m) : Option (List FTNode)) = some cs' := h
    injection h0 with h0
    exact ⟨m, rfl, h0.symm⟩
  | s :: rest, m => by
    intro hU cs' h
    rw [childrenAt_cons, find?_convert s (hU [] m rfl)] at h
    cases hfind : m.find? (fun n => n.name == s) with
    | none =>
      rw [hfind] at h
      cases h
    | some n =>
      rw [hfind] at h
      match n, hfind, h with
      | .file nm pth sz ex, hfind, h => cases h
      | .folder nm pth ch, hfind, h =>
        have h2 : childrenAt (convertToArray ch) rest = some cs' := h
        rcases childrenAt_convert rest ch (UniqM_sub hfind hU) cs' h2 with
          ⟨cs, hcs, hcs'⟩
        refine ⟨cs, ?_, hcs'⟩
        rw [childrenAt_cons, hfind]
        exact hcs

theorem OrdM_start (L : List ZipEntry) (pfx : Str) : OrdM L pfx [] [] := by
  intro Q cs hQ
  match Q, hQ with
  | [], hQ =>
    have h0 : (some ([] : List FTNode) : Option (List FTNode)) = some cs := hQ
    injection h0 with h0
    rw [← h0]
    exact List.Pairwise.nil
  | q :: Q', hQ => cases hQ


/-- C3 counterexample: on the archive `[10/a.md, 2/b.md]` the returned
root level is `["2", "10"]` (numeric keys enumerate in ascending numeric
order), but the creating entries of this adjacent pair are `2/b.md` and
`10/a.md`, which the byte-wise entry order places the other way round:
the claimed sibling ordering by creating-entry order fails. -/
theorem claim3_counterexample :
    buildFileTree numFolderArchive = .ok
      [.folder (str "2") (str "2") [.file (str "b.md") (str "2/b.md") 1 (str ".md")],
       .folder (str "10") (str "10") [.file (str "a.md") (str "10/a.md") 1 (str ".md")]] ∧
    creatorIn (buildPfx numFolderArchive) [str "2"]
      (sortValidEntries numFolderArchive) = some ⟨str "2/b.md", false, 1, none⟩ ∧
    creatorIn (buildPfx numFolderArchive) [str "10"]
      (sortValidEntries numFolderArchive) = some ⟨str "10/a.md", false, 1, none⟩ ∧
    strLe (str "2/b.md") (str "10/a.md") = false :=
  ⟨rfl, rfl, rfl, rfl⟩

/-- C3 (amended): at every level of the returned forest, the siblings
whose names are JavaScript array-index keys (canonical digit strings
below 2^32 - 1) come first, in ascending numeric order; the remaining
siblings follow, and those are ordered by their creating entries: for
every later such pair, both positions have a first reaching entry in the
sorted retained list, and those creating entries' full original paths
compare in the byte-wise order used by the sort. -/
theorem claim3_amended (entries : List ZipEntry) (f : List FTNode)
    (hf : buildFileTree entries = .ok f) (P : List Str) (cs : List FTNode)
    (hcs : childrenAt f P = some cs) :
    ∃ num rest, cs = num ++ rest ∧
      (∀ n ∈ num, isArrayIndexKey n.name = true) ∧
      (∀ n ∈ rest, isArrayIndexKey n.name = false) ∧
      (num.map (fun n => natOfDigits n.name)).Pairwise (· ≤ ·) ∧
      (rest.map FTNode.name).Pairwise (fun s1 s2 => ∃ eu ev,
        creatorIn (buildPfx entries) (P ++ [s1]) (sortValidEntries entries) = some eu ∧
        creatorIn (buildPfx entries) (P ++ [s2]) (sortValidEntries entries) = some ev ∧
        strLe eu.entryName ev.entryName = true) := by
  unfold buildFileTree at hf
  cases hfold : (sortValidEntries entries).foldlM (insertEntry (buildPfx entries)) [] with
  | error msg =>
    rw [hfold] at hf
    cases hf
  | ok root =>
    rw [hfold] at hf
    dsimp only at hf
    injection hf with hf
    subst hf
    have hU : UniqM root :=
      foldlM_insert_uniq (buildPfx entries) (sortValidEntries entries) [] UniqM_nil
        root hfold
    have hO : OrdM (sortValidEntries entries) (buildPfx entries) [] root :=
      (foldlM_insert_ord (buildPfx entries) (sortValidEntries entries)
        (sortValidEntries entries) [] [] rfl
        (SoundM_start (buildPfx entries)) (CompM_start (buildPfx entries))
        (OrdM_start (sortValidEntries entries) (buildPfx entries))
        root hfold).2.2
    rcases childrenAt_convert P root hU cs hcs with ⟨cs0, hcs0, hconv⟩
    subst hconv
    refine ⟨((convertEach cs0).filter (fun n => isArrayIndexKey n.name)).insertionSort numKeyLe,
      (convertEach cs0).filter (fun n => !isArrayIndexKey n.name), ?_, ?_, ?_, ?_, ?_⟩
    · rfl
    · intro n hn
      have hn' := (List.perm_insertionSort numKeyLe _).subset hn
      exact (List.mem_filter.mp hn').2
    · intro n hn
      simpa using (List.mem_filter.mp hn).2
    · haveI : IsTotal FTNode numKeyLe := ⟨fun a b => Nat.le_total _ _⟩
      haveI : IsTrans FTNode numKeyLe := ⟨fun a b c => Nat.le_trans⟩
      refine List.pairwise_map.mpr ?_
      exact List.sorted_insertionSort numKeyLe _
    · have hpw0 := hO P cs0 hcs0
      simp only [List.nil_append] at hpw0
      haveI : IsTotal ZipEntry entryLe := ⟨fun a b => strLe_total a.entryName b.entryName⟩
      haveI : IsTrans ZipEntry entryLe :=
        ⟨fun a b c hab hbc => strLe_trans a.entryName b.entryName c.entryName hab hbc⟩
      have hsorted : (sortValidEntries entries).Pairwise entryLe :=
        List.sorted_insertionSort entryLe _
      have hpw : (cs0.map FTNode.name).Pairwise (fun s1 s2 => ∃ eu ev,
          creatorIn (buildPfx entries) (P ++ [s1]) (sortValidEntries entries) = some eu ∧
          creatorIn (buildPfx entries) (P ++ [s2]) (sortValidEntries entries) = some ev ∧
          strLe eu.entryName ev.entryName = true) := by
        refine hpw0.imp ?_
        rintro s1 s2 ⟨eu, ev, h1, h2, hb⟩
        refine ⟨eu, ev, h1, h2, ?_⟩
        cases hb with
        | inl hsub =>
          have := hsorted.sublist hsub
          exact (List.pairwise_cons.mp this).1 ev (List.mem_singleton.mpr rfl)
        | inr heq =>
          rw [heq]
          exact strLe_refl ev.entryName
      have hsub : ((convertEach cs0).filter
            (fun n => !isArrayIndexKey n.name)).map FTNode.name |>.Sublist
          (cs0.map FTNode.name) := by
        rw [← convertEach_map_name cs0]
        exact (List.filter_sublist (convertEach cs0)).map FTNode.name
      exact hpw.sublist hsub

set_option maxRecDepth 40000 in
/-- Witness for C3 (amended): on the §8 archive, at position `["src"]`,
the split is empty numeric part plus `[a.py, b.txt]`, whose creating
entries `proj/src/a.py` and `proj/src/b.txt` are in byte-wise order. -/
theorem claim3_amended_witness :
    ∃ num rest,
      [FTNode.file (str "a.py") (str "src/a.py") 9 (str ".py"),
       FTNode.file (str "b.txt") (str "src/b.txt") 0 (str ".txt")] = num ++ rest ∧
      (∀ n ∈ num, isArrayIndexKey n.name = true) ∧
      (∀ n ∈ rest, isArrayIndexKey n.name = false) ∧
      (num.map (fun n => natOfDigits n.name)).Pairwise (· ≤ ·) ∧
      (rest.map FTNode.name).Pairwise (fun s1 s2 => ∃ eu ev,
        creatorIn (buildPfx scnEntries) ([str "src"] ++ [s1])
          (sortValidEntries scnEntries) = some eu ∧
        creatorIn (buildPfx scnEntries) ([str "src"] ++ [s2])
          (sortValidEntries scnEntries) = some ev ∧
        strLe eu.entryName ev.entryName = true) :=
  claim3_amended scnEntries
    [FTNode.folder (str "src") (str "src")
      [FTNode.file (str "a.py") (str "src/a.py") 9 (str ".py"),
       FTNode.file (str "b.txt") (str "src/b.txt") 0 (str ".txt")]]
    rfl [str "src"]
    [FTNode.file (str "a.py") (str "src/a.py") 9 (str ".py"),
     FTNode.file (str "b.txt") (str "src/b.txt") 0 (str ".txt")]
    rfl
